import Mathlib

/-!
# Verification of the `constant_time_eq` crate against its specification

This file gives a shallow embedding, in Lean 4, of the comparison engines of
the `constant_time_eq` Rust crate, and proves (or refutes) the frozen claims
about them.

Modelling conventions:

* A byte buffer (`&[u8]`) is a `List Nat` whose elements are below 256; the
  predicate `Bytes` records the bound where a proof needs it.
* The target is the 64-bit little-endian configuration used by both vector
  back ends (x86-64 with SSE2, and aarch64 with NEON): `Word = u64`, so
  machine words are `Nat` values below `2 ^ 64`, and `read_unaligned`
  assembles bytes in little-endian order (`leVal`).
* `optimizer_hide` and the `*_hide` assembly intrinsics are value-level
  identities (their whole purpose in the source is to be identities that the
  optimizer cannot see through); their timing properties are out of scope of
  a functional embedding.
* `while` loops are translated fuel-style, with the initial slice length as
  fuel; every iteration of every loop below consumes at least one element,
  so the fuel never runs out (the lemmas only ever need `length ≤ fuel`).
* The aarch64 DIT state (the `dit` system register) is modelled as explicit
  state of type `Nat` threaded through the `dit.rs` functions; a wrapped
  computation that may unwind is modelled as returning `Except`.
-/

/-- `Bytes l` states that every element of `l` is a valid byte value. -/
def Bytes (l : List Nat) : Prop := ∀ x ∈ l, x < 256

instance : DecidablePred Bytes := fun l =>
  inferInstanceAs (Decidable (∀ x ∈ l, x < 256))

/-- Little-endian value of a byte list, as read by `read_unaligned` on a
little-endian target. -/
def leVal : List Nat → Nat
  | [] => 0
  | b :: l => b + 256 * leVal l

namespace generic

/-- Models `generic::optimizer_hide`: the inline assembly passes the value
through unchanged. -/
def optimizer_hide (value : Nat) : Nat := value

/-- Models `generic::cmp_step::<T>` for a type `T` of `s` bytes: reads one
`T` from the front of each slice (little-endian, unaligned), advances both
slices, and returns the XOR of the two values together with the advanced
slices. -/
def cmp_step (s : Nat) (a b : List Nat) : Nat × List Nat × List Nat :=
  (leVal (a.take s) ^^^ leVal (b.take s), a.drop s, b.drop s)

/-- Models the main `while a.len() >= size_of::<Word>()` loop of
`constant_time_eq_impl` (with `Word = u64`, so 8 bytes per step), fuel-style.
Each iteration consumes 8 bytes, so fuel `≥ a.length` is always enough. -/
def wordLoopAux : Nat → Nat → List Nat → List Nat → Nat × List Nat × List Nat
  | 0, tmp, a, b => (tmp, a, b)
  | fuel + 1, tmp, a, b =>
    if 8 ≤ a.length then
      let c := cmp_step 8 a b
      wordLoopAux fuel (optimizer_hide (tmp ||| optimizer_hide c.1)) c.2.1 c.2.2
    else (tmp, a, b)

/-- The word-sized accumulation loop of `constant_time_eq_impl`, entered with
accumulator `tmp`; returns the accumulator and the remaining slices. -/
def wordLoop (tmp : Nat) (a b : List Nat) : Nat × List Nat × List Nat :=
  wordLoopAux a.length tmp a b

/-- Models the `while a.len() >= size_of::<u128>()` future-proofing loop:
16-byte steps whose XOR is truncated by the `as Word` cast. -/
def u128LoopAux : Nat → Nat → List Nat → List Nat → Nat × List Nat × List Nat
  | 0, tmp, a, b => (tmp, a, b)
  | fuel + 1, tmp, a, b =>
    if 16 ≤ a.length then
      let c := cmp_step 16 a b
      u128LoopAux fuel (optimizer_hide (tmp ||| optimizer_hide (c.1 % 2 ^ 64))) c.2.1 c.2.2
    else (tmp, a, b)

/-- Models one of the `if a.len() >= size_of::<T>()` tail blocks of
`constant_time_eq_impl`, for a `T` of `s ≤ 8` bytes (the `as Word` cast is a
zero-extension there, hence a no-op on `Nat`). -/
def cond_step (s tmp : Nat) (a b : List Nat) : Nat × List Nat × List Nat :=
  if s ≤ a.length then
    let c := cmp_step s a b
    (optimizer_hide (tmp ||| optimizer_hide c.1), c.2.1, c.2.2)
  else (tmp, a, b)

/-- The composition of the four tail blocks of `constant_time_eq_impl`
(the `if a.len() >= size_of::<T>()` blocks for `T` = u64, u32, u16, u8),
returning the final accumulator. -/
def tailChain (tmp : Nat) (a b : List Nat) : Nat :=
  let c8 := cond_step 8 tmp a b
  let c4 := cond_step 4 c8.1 c8.2.1 c8.2.2
  let c2 := cond_step 2 c4.1 c4.2.1 c4.2.2
  let c1 := cond_step 1 c2.1 c2.2.1 c2.2.2
  c1.1

/-- Models `generic::constant_time_eq_impl(a, b, tmp)`: length check, word
loop, u128 loop, then the u64/u32/u16/u8 tail blocks, and the single final
comparison of the accumulator with zero. -/
def constant_time_eq_impl (a b : List Nat) (tmp : Nat) : Bool :=
  if a.length ≠ b.length then false
  else if a.isEmpty then tmp == 0
  else
    let w := wordLoop tmp a b
    let v := u128LoopAux w.2.1.length w.1 w.2.1 w.2.2
    tailChain v.1 v.2.1 v.2.2 == 0

/-- Models `generic::constant_time_eq` (the `with_dit` wrapper is the
identity on the returned value). -/
def constant_time_eq (a b : List Nat) : Bool := constant_time_eq_impl a b 0

/-- Models `generic::constant_time_eq_n::<N>`; the two arrays are length-`N`
lists, enforced by hypotheses at the use sites. -/
def constant_time_eq_n (a b : List Nat) : Bool := constant_time_eq_impl a b 0

end generic

/-! ## Basic lemmas about bytes and little-endian values -/

theorem bytes_take (l : List Nat) (h : Bytes l) (n : Nat) : Bytes (l.take n) :=
  fun x hx => h x (List.mem_of_mem_take hx)

theorem bytes_drop (l : List Nat) (h : Bytes l) (n : Nat) : Bytes (l.drop n) :=
  fun x hx => h x (List.mem_of_mem_drop hx)

theorem leVal_lt (l : List Nat) (h : Bytes l) : leVal l < 2 ^ (8 * l.length) := by
  induction l with
  | nil => simp [leVal]
  | cons b l ih =>
    have hb : b < 256 := h b (List.mem_cons_self b l)
    have hl : leVal l < 2 ^ (8 * l.length) := ih fun x hx => h x (List.mem_cons_of_mem b hx)
    have : 2 ^ (8 * (b :: l).length) = 256 * 2 ^ (8 * l.length) := by
      rw [List.length_cons, Nat.mul_add, Nat.pow_add]
      ring
    rw [this, leVal]
    omega

theorem leVal_inj : ∀ a b : List Nat, Bytes a → Bytes b →
    a.length = b.length → leVal a = leVal b → a = b
  | [], [], _, _, _, _ => rfl
  | [], _ :: _, _, _, hlen, _ => by simp at hlen
  | _ :: _, [], _, _, hlen, _ => by simp at hlen
  | x :: l, y :: m, ha, hb, hlen, h => by
    have hx : x < 256 := ha x (List.mem_cons_self x l)
    have hy : y < 256 := hb y (List.mem_cons_self y m)
    simp only [leVal] at h
    have hxy : x = y ∧ leVal l = leVal m := by omega
    have hrec : l = m := leVal_inj l m (fun z hz => ha z (List.mem_cons_of_mem x hz))
      (fun z hz => hb z (List.mem_cons_of_mem y hz))
      (by simpa using hlen) hxy.2
    rw [hxy.1, hrec]

theorem leVal_eq_iff (a b : List Nat) (ha : Bytes a) (hb : Bytes b)
    (hlen : a.length = b.length) : leVal a = leVal b ↔ a = b :=
  ⟨leVal_inj a b ha hb hlen, fun h => by rw [h]⟩

theorem leVal_xor_eq_zero_iff (a b : List Nat) (ha : Bytes a) (hb : Bytes b)
    (hlen : a.length = b.length) : leVal a ^^^ leVal b = 0 ↔ a = b := by
  rw [Nat.xor_eq_zero]
  exact leVal_eq_iff a b ha hb hlen

theorem lor_eq_zero_iff (x y : Nat) : x ||| y = 0 ↔ x = 0 ∧ y = 0 := by
  constructor
  · intro h
    constructor <;> apply Nat.eq_of_testBit_eq <;> intro i <;>
      [have hi := congrArg (fun n => Nat.testBit n i) h;
       have hi := congrArg (fun n => Nat.testBit n i) h] <;>
      simp only [Nat.testBit_or, Nat.zero_testBit, Bool.or_eq_false_iff] at hi <;>
      simp [hi.1, hi.2]
  · rintro ⟨rfl, rfl⟩; rfl

theorem leVal_append (a b : List Nat) :
    leVal (a ++ b) = leVal a + 2 ^ (8 * a.length) * leVal b := by
  induction a with
  | nil => simp [leVal]
  | cons x l ih =>
    have hp : 2 ^ (8 * (x :: l).length) = 256 * 2 ^ (8 * l.length) := by
      rw [List.length_cons, Nat.mul_add, Nat.pow_add]; ring
    calc leVal (x :: l ++ b) = x + 256 * leVal (l ++ b) := rfl
    _ = x + 256 * (leVal l + 2 ^ (8 * l.length) * leVal b) := by rw [ih]
    _ = (x + 256 * leVal l) + (256 * 2 ^ (8 * l.length)) * leVal b := by ring
    _ = leVal (x :: l) + 2 ^ (8 * (x :: l).length) * leVal b := by rw [hp]; rfl

theorem eq_iff_split (s : Nat) (a b : List Nat) :
    a = b ↔ (a.take s = b.take s ∧ a.drop s = b.drop s) := by
  constructor
  · rintro rfl; exact ⟨rfl, rfl⟩
  · rintro ⟨h1, h2⟩
    calc a = a.take s ++ a.drop s := (List.take_append_drop s a).symm
    _ = b.take s ++ b.drop s := by rw [h1, h2]
    _ = b := List.take_append_drop s b

theorem acc_zero_iff (s tmp : Nat) (a b : List Nat) (hsa : s ≤ a.length)
    (hsb : s ≤ b.length) (ha : Bytes a) (hb : Bytes b) :
    tmp ||| (leVal (a.take s) ^^^ leVal (b.take s)) = 0 ↔
      (tmp = 0 ∧ a.take s = b.take s) := by
  rw [lor_eq_zero_iff, leVal_xor_eq_zero_iff _ _ (bytes_take a ha s) (bytes_take b hb s)]
  simp [List.length_take, Nat.min_eq_left hsa, Nat.min_eq_left hsb]

/-! ## Lemmas about the loops of the generic engine -/

theorem cond_step_skip (s tmp : Nat) (a b : List Nat) (h : a.length < s) :
    generic.cond_step s tmp a b = (tmp, a, b) := by
  simp [generic.cond_step, Nat.not_le.mpr h]

theorem cond_step_eq (s tmp : Nat) (a b : List Nat) (h : s ≤ a.length) :
    generic.cond_step s tmp a b =
      (tmp ||| (leVal (a.take s) ^^^ leVal (b.take s)), a.drop s, b.drop s) := by
  simp [generic.cond_step, generic.cmp_step, generic.optimizer_hide, h]

theorem u128LoopAux_of_lt (fuel tmp : Nat) (a b : List Nat) (h : a.length < 16) :
    generic.u128LoopAux fuel tmp a b = (tmp, a, b) := by
  cases fuel with
  | zero => rfl
  | succ n => simp [generic.u128LoopAux, Nat.not_le.mpr h]

theorem wordLoopAux_spec : ∀ fuel tmp : Nat, ∀ a b : List Nat,
    a.length ≤ fuel → a.length = b.length → Bytes a → Bytes b →
    (generic.wordLoopAux fuel tmp a b).2.1 = a.drop (8 * (a.length / 8)) ∧
    (generic.wordLoopAux fuel tmp a b).2.2 = b.drop (8 * (a.length / 8)) ∧
    ((generic.wordLoopAux fuel tmp a b).1 = 0 ↔
      tmp = 0 ∧ a.take (8 * (a.length / 8)) = b.take (8 * (a.length / 8)))
  | 0, tmp, a, b, hfuel, hlen, _, _ => by
    have ha0 : a = [] := List.eq_nil_of_length_eq_zero (Nat.le_zero.mp hfuel)
    subst ha0
    simp [generic.wordLoopAux]
  | fuel + 1, tmp, a, b, hfuel, hlen, ha, hb => by
    by_cases h8 : 8 ≤ a.length
    · have hstep : generic.wordLoopAux (fuel + 1) tmp a b =
          generic.wordLoopAux fuel (tmp ||| (leVal (a.take 8) ^^^ leVal (b.take 8)))
            (a.drop 8) (b.drop 8) := by
        simp [generic.wordLoopAux, h8, generic.cmp_step, generic.optimizer_hide]
      have hlen' : (a.drop 8).length = (b.drop 8).length := by
        simp [List.length_drop, hlen]
      have hfuel' : (a.drop 8).length ≤ fuel := by
        simp only [List.length_drop]; omega
      obtain ⟨ih1, ih2, ih3⟩ := wordLoopAux_spec fuel
        (tmp ||| (leVal (a.take 8) ^^^ leVal (b.take 8))) (a.drop 8) (b.drop 8)
        hfuel' hlen' (bytes_drop a ha 8) (bytes_drop b hb 8)
      have hdiv : 8 * ((a.drop 8).length / 8) = 8 * (a.length / 8) - 8 := by
        simp only [List.length_drop]; omega
      have hK : 8 ≤ 8 * (a.length / 8) := by omega
      have hdropa : (a.drop 8).drop (8 * ((a.drop 8).length / 8)) =
          a.drop (8 * (a.length / 8)) := by
        rw [List.drop_drop, hdiv]; congr 1; omega
      have hdropb : (b.drop 8).drop (8 * ((a.drop 8).length / 8)) =
          b.drop (8 * (a.length / 8)) := by
        rw [List.drop_drop, hdiv]; congr 1; omega
      refine ⟨by rw [hstep, ih1, hdropa], by rw [hstep, ih2, hdropb], ?_⟩
      rw [hstep, ih3, acc_zero_iff 8 tmp a b h8 (hlen ▸ h8) ha hb]
      have htakea : a.take (8 * (a.length / 8)) =
          a.take 8 ++ (a.drop 8).take (8 * ((a.drop 8).length / 8)) := by
        rw [hdiv, ← List.take_add]; congr 1; omega
      have htakeb : b.take (8 * (a.length / 8)) =
          b.take 8 ++ (b.drop 8).take (8 * ((a.drop 8).length / 8)) := by
        rw [hdiv, ← List.take_add]; congr 1; omega
      rw [htakea, htakeb]
      constructor
      · rintro ⟨⟨htmp, hh⟩, ht⟩
        exact ⟨htmp, by rw [hh, ht]⟩
      · rintro ⟨htmp, happ⟩
        have hla : (a.take 8).length = (b.take 8).length := by
          simp [List.length_take, Nat.min_eq_left h8, Nat.min_eq_left (hlen ▸ h8)]
        obtain ⟨h1, h2⟩ := List.append_inj happ hla
        exact ⟨⟨htmp, h1⟩, h2⟩
    · have hK0 : a.length / 8 = 0 := Nat.div_eq_of_lt (Nat.not_le.mp h8)
      simp [generic.wordLoopAux, h8, hK0]

theorem list_eq_of_length_zero {a b : List Nat} (ha : a.length = 0)
    (hb : b.length = 0) : a = b := by
  rw [List.eq_nil_of_length_eq_zero ha, List.eq_nil_of_length_eq_zero hb]



theorem take_one_of_length_one {a : List Nat} (h : a.length = 1) : a.take 1 = a :=
  List.take_of_length_le (by omega)

/-- On a remainder shorter than one word, the tail blocks accumulate exactly
the difference of the whole remainder. -/
theorem tailChain_zero_iff (tmp : Nat) (a b : List Nat) (hlen : a.length = b.length)
    (hlt : a.length < 8) (ha : Bytes a) (hb : Bytes b) :
    (generic.tailChain tmp a b = 0) ↔ (tmp = 0 ∧ a = b) := by
  simp only [generic.tailChain]
  rw [cond_step_skip 8 tmp a b hlt]
  by_cases h4 : 4 ≤ a.length
  · rw [cond_step_eq 4 tmp a b h4]
    dsimp only
    have hda : (a.drop 4).length = a.length - 4 := by simp
    have hdb : (b.drop 4).length = b.length - 4 := by simp
    by_cases h2 : 2 ≤ (a.drop 4).length
    · rw [cond_step_eq 2 _ _ _ h2]
      dsimp only
      have hdda : ((a.drop 4).drop 2).length = a.length - 6 := by simp
      have hddb : ((b.drop 4).drop 2).length = b.length - 6 := by simp
      by_cases h1 : 1 ≤ ((a.drop 4).drop 2).length
      · rw [cond_step_eq 1 _ _ _ h1]
        dsimp only
        rw [acc_zero_iff 1 _ _ _ h1 (by omega) (bytes_drop _ (bytes_drop _ ha 4) 2)
          (bytes_drop _ (bytes_drop _ hb 4) 2)]
        rw [acc_zero_iff 2 _ _ _ h2 (by omega) (bytes_drop _ ha 4) (bytes_drop _ hb 4)]
        rw [acc_zero_iff 4 _ _ _ h4 (by omega) ha hb]
        rw [eq_iff_split 4 a b, eq_iff_split 2 (a.drop 4) (b.drop 4),
          eq_iff_split 1 ((a.drop 4).drop 2) ((b.drop 4).drop 2)]
        have hz : ((a.drop 4).drop 2).drop 1 = ((b.drop 4).drop 2).drop 1 :=
          list_eq_of_length_zero (by simp; omega) (by simp; omega)
        rw [take_one_of_length_one (by omega), take_one_of_length_one (by omega)]
        tauto
      · rw [cond_step_skip 1 _ _ _ (by omega)]
        dsimp only
        rw [acc_zero_iff 2 _ _ _ h2 (by omega) (bytes_drop _ ha 4) (bytes_drop _ hb 4)]
        rw [acc_zero_iff 4 _ _ _ h4 (by omega) ha hb]
        rw [eq_iff_split 4 a b, eq_iff_split 2 (a.drop 4) (b.drop 4)]
        have hz : (a.drop 4).drop 2 = (b.drop 4).drop 2 :=
          list_eq_of_length_zero (by omega) (by omega)
        tauto
    · rw [cond_step_skip 2 _ _ _ (by omega)]
      dsimp only
      by_cases h1 : 1 ≤ (a.drop 4).length
      · rw [cond_step_eq 1 _ _ _ h1]
        dsimp only
        rw [acc_zero_iff 1 _ _ _ h1 (by omega) (bytes_drop _ ha 4) (bytes_drop _ hb 4)]
        rw [acc_zero_iff 4 _ _ _ h4 (by omega) ha hb]
        rw [eq_iff_split 4 a b, eq_iff_split 1 (a.drop 4) (b.drop 4)]
        have hz : (a.drop 4).drop 1 = (b.drop 4).drop 1 :=
          list_eq_of_length_zero (by simp; omega) (by simp; omega)
        rw [take_one_of_length_one (by omega), take_one_of_length_one (by omega)]
        tauto
      · rw [cond_step_skip 1 _ _ _ (by omega)]
        dsimp only
        rw [acc_zero_iff 4 _ _ _ h4 (by omega) ha hb]
        rw [eq_iff_split 4 a b]
        have hz : a.drop 4 = b.drop 4 :=
          list_eq_of_length_zero (by omega) (by omega)
        tauto
  · rw [cond_step_skip 4 tmp a b (by omega)]
    have hda : (a.drop 2).length = a.length - 2 := by simp
    have hdb : (b.drop 2).length = b.length - 2 := by simp
    by_cases h2 : 2 ≤ a.length
    · rw [cond_step_eq 2 tmp a b h2]
      dsimp only
      by_cases h1 : 1 ≤ (a.drop 2).length
      · rw [cond_step_eq 1 _ _ _ h1]
        dsimp only
        rw [acc_zero_iff 1 _ _ _ h1 (by omega) (bytes_drop _ ha 2) (bytes_drop _ hb 2)]
        rw [acc_zero_iff 2 _ _ _ h2 (by omega) ha hb]
        rw [eq_iff_split 2 a b, eq_iff_split 1 (a.drop 2) (b.drop 2)]
        have hz : (a.drop 2).drop 1 = (b.drop 2).drop 1 :=
          list_eq_of_length_zero (by simp; omega) (by simp; omega)
        rw [take_one_of_length_one (by omega), take_one_of_length_one (by omega)]
        tauto
      · rw [cond_step_skip 1 _ _ _ (by omega)]
        dsimp only
        rw [acc_zero_iff 2 _ _ _ h2 (by omega) ha hb]
        rw [eq_iff_split 2 a b]
        have hz : a.drop 2 = b.drop 2 :=
          list_eq_of_length_zero (by omega) (by omega)
        tauto
    · rw [cond_step_skip 2 tmp a b (by omega)]
      by_cases h1 : 1 ≤ a.length
      · rw [cond_step_eq 1 tmp a b h1]
        dsimp only
        rw [acc_zero_iff 1 _ _ _ h1 (by omega) ha hb]
        rw [take_one_of_length_one (by omega), take_one_of_length_one (by omega)]
      · rw [cond_step_skip 1 tmp a b (by omega)]
        dsimp only
        have hz : a = b := list_eq_of_length_zero (by omega) (by omega)
        simp [hz]

/-- Full functional correctness of the generic scalar engine: it returns
`true` exactly when the seed is zero and the two equal-length inputs are
byte-wise equal. -/
theorem impl_eq_true_iff (a b : List Nat) (tmp : Nat) (hlen : a.length = b.length)
    (ha : Bytes a) (hb : Bytes b) :
    (generic.constant_time_eq_impl a b tmp = true) ↔ (tmp = 0 ∧ a = b) := by
  unfold generic.constant_time_eq_impl
  rw [if_neg (by omega : ¬ a.length ≠ b.length)]
  by_cases hemp : a.isEmpty
  · rw [if_pos hemp]
    have ha0 : a = [] := List.isEmpty_iff.mp hemp
    have hb0 : b = [] := by
      apply List.eq_nil_of_length_eq_zero
      rw [← hlen, ha0]
      rfl
    subst ha0; subst hb0
    simp
  · rw [if_neg hemp]
    obtain ⟨h1, h2, h3⟩ := wordLoopAux_spec a.length tmp a b (Nat.le_refl _) hlen ha hb
    rcases hres : generic.wordLoop tmp a b with ⟨t1, ra, rb⟩
    have hres' : generic.wordLoopAux a.length tmp a b = (t1, ra, rb) := hres
    rw [hres'] at h1 h2 h3
    dsimp only at h1 h2 h3
    dsimp only
    have hralen : ra.length < 16 := by
      rw [h1, List.length_drop]
      omega
    rw [u128LoopAux_of_lt ra.length t1 ra rb hralen]
    dsimp only
    have hchain := tailChain_zero_iff t1 ra rb
      (by rw [h1, h2]; simp [hlen])
      (by rw [h1, List.length_drop]; omega)
      (h1 ▸ bytes_drop a ha _) (h2 ▸ bytes_drop b hb _)
    rw [beq_iff_eq, hchain, h3, h1, h2, eq_iff_split (8 * (a.length / 8)) a b]
    rw [and_assoc]

/-! ## The SSE2 vector engine (`sse2.rs`) -/

namespace sse2

/-- Models `sse2::cmpeq_epi8` (the hidden `pcmpeqb`): per-byte-lane equality
mask over the 16 byte lanes of a 128-bit register, `0xFF` for equal lanes and
`0x00` for different lanes.  A register is represented as its list of byte
lanes, in memory order. -/
def cmpeq_epi8 (a b : List Nat) : List Nat :=
  List.zipWith (fun x y => if x = y then 255 else 0) a b

/-- Models `sse2::and_si128` (the hidden `pand`): lane-wise bitwise AND. -/
def and_si128 (a b : List Nat) : List Nat :=
  List.zipWith (fun x y => x &&& y) a b

/-- Models `sse2::movemask_epi8` (the hidden `pmovmskb`): bit `i` of the
result is bit 7 of byte lane `i`. -/
def movemask_epi8 : List Nat → Nat
  | [] => 0
  | x :: l => (if x.testBit 7 then 1 else 0) + 2 * movemask_epi8 l

/-- Models the partial-register load of `sse2.rs` (`loadu_…` with `n ≤ 16`;
the Rust identifier's suffix cannot be used in a Lean name here): loads `n`
bytes into a 128-bit register, possibly duplicating some lanes through two
overlapping loads, and zeroing all upper lanes. -/
def loadu_short (a : List Nat) (n : Nat) : List Nat :=
  if 8 < n then a.take 8 ++ (a.drop (n - 8)).take 8
  else if n = 8 then a.take 8 ++ List.replicate 8 0
  else if 4 < n then a.take 4 ++ (a.drop (n - 4)).take 4 ++ List.replicate 8 0
  else if n = 4 then a.take 4 ++ List.replicate 12 0
  else if 2 < n then a.take 2 ++ (a.drop (n - 2)).take 2 ++ List.replicate 12 0
  else if n = 2 then a.take 2 ++ List.replicate 14 0
  else if 0 < n then a.take 1 ++ List.replicate 15 0
  else List.replicate 16 0

/-- Models the `while n >= LANES * 2` loop of `constant_time_eq_sse2`
(fuel-style): two 16-byte chunks per iteration, compared and AND-folded into
the two running masks. -/
def loopAux : Nat → List Nat → List Nat → List Nat → List Nat →
    List Nat × List Nat × List Nat × List Nat
  | 0, mask0, mask1, a, b => (mask0, mask1, a, b)
  | fuel + 1, mask0, mask1, a, b =>
    if 32 ≤ a.length then
      loopAux fuel
        (and_si128 mask0 (cmpeq_epi8 (a.take 16) (b.take 16)))
        (and_si128 mask1 (cmpeq_epi8 ((a.drop 16).take 16) ((b.drop 16).take 16)))
        (a.drop 32) (b.drop 32)
    else (mask0, mask1, a, b)

/-- Models `sse2::constant_time_eq_sse2(a, b, n)`, with `n = a.length` (the
function receives a single length, taken from `a`, for both pointers). -/
def constant_time_eq_sse2 (a b : List Nat) : Bool :=
  if 32 ≤ a.length then
    let m0 := cmpeq_epi8 (a.take 16) (b.take 16)
    let m1 := cmpeq_epi8 ((a.drop 16).take 16) ((b.drop 16).take 16)
    let r := loopAux (a.drop 32).length m0 m1 (a.drop 32) (b.drop 32)
    let ra := r.2.2.1
    let rb := r.2.2.2
    let m0' := if 16 ≤ ra.length then
        and_si128 r.1 (cmpeq_epi8 (ra.take 16) (rb.take 16))
      else r.1
    let ra' := if 16 ≤ ra.length then ra.drop 16 else ra
    let rb' := if 16 ≤ ra.length then rb.drop 16 else rb
    let m1' := if 0 < ra'.length then
        and_si128 r.2.1 (cmpeq_epi8 (loadu_short ra' ra'.length) (loadu_short rb' ra'.length))
      else r.2.1
    movemask_epi8 (and_si128 m0' m1') == 0xFFFF
  else if 16 ≤ a.length then
    let m := cmpeq_epi8 (a.take 16) (b.take 16)
    let m' := if 0 < (a.drop 16).length then
        and_si128 m (cmpeq_epi8 (loadu_short (a.drop 16) (a.drop 16).length)
          (loadu_short (b.drop 16) (a.drop 16).length))
      else m
    movemask_epi8 m' == 0xFFFF
  else if 0 < a.length then
    movemask_epi8 (cmpeq_epi8 (loadu_short a a.length) (loadu_short b a.length)) == 0xFFFF
  else true

/-- Models `sse2::constant_time_eq`: explicit length check, then the engine. -/
def constant_time_eq (a b : List Nat) : Bool :=
  a.length == b.length && constant_time_eq_sse2 a b

/-- Models `sse2::constant_time_eq_n::<N>`: both arrays have length `N`, so
no length check is performed. -/
def constant_time_eq_n (a b : List Nat) : Bool :=
  constant_time_eq_sse2 a b

end sse2

/-! ## Lane-mask lemmas shared by the vector engines -/

/-- All lanes of a mask register are `0x00` or `0xFF` (the shape produced by
the lane-wise equality compares). -/
def MaskBytes (m : List Nat) : Prop := ∀ x ∈ m, x = 0 ∨ x = 255

/-- All lanes of a mask register are `0xFF`. -/
def allFF (m : List Nat) : Prop := ∀ x ∈ m, x = 255

instance : DecidablePred MaskBytes := fun m =>
  inferInstanceAs (Decidable (∀ x ∈ m, x = 0 ∨ x = 255))

instance : DecidablePred allFF := fun m =>
  inferInstanceAs (Decidable (∀ x ∈ m, x = 255))

theorem length_cmpeq (a b : List Nat) :
    (sse2.cmpeq_epi8 a b).length = min a.length b.length := by
  simp [sse2.cmpeq_epi8]

theorem length_and (a b : List Nat) :
    (sse2.and_si128 a b).length = min a.length b.length := by
  simp [sse2.and_si128]

theorem maskBytes_cmpeq : ∀ a b : List Nat, MaskBytes (sse2.cmpeq_epi8 a b)
  | [], b => by simp [sse2.cmpeq_epi8, MaskBytes]
  | _ :: _, [] => by simp [sse2.cmpeq_epi8, MaskBytes]
  | x :: l, y :: m => by
    intro z hz
    simp only [sse2.cmpeq_epi8, List.zipWith_cons_cons] at hz
    rcases List.mem_cons.mp hz with h | h
    · subst h
      by_cases hxy : x = y <;> simp [hxy]
    · exact maskBytes_cmpeq l m z h

theorem allFF_cmpeq_iff : ∀ a b : List Nat, a.length = b.length →
    (allFF (sse2.cmpeq_epi8 a b) ↔ a = b)
  | [], [], _ => by simp [sse2.cmpeq_epi8, allFF]
  | [], _ :: _, hlen => by simp at hlen
  | _ :: _, [], hlen => by simp at hlen
  | x :: l, y :: m, hlen => by
    have ih := allFF_cmpeq_iff l m (by simpa using hlen)
    simp only [sse2.cmpeq_epi8, List.zipWith_cons_cons, allFF, List.mem_cons] at *
    constructor
    · intro h
      have hx : (if x = y then 255 else 0) = 255 := h _ (Or.inl rfl)
      have hrest : l = m := ih.mp fun z hz => h z (Or.inr hz)
      by_cases hxy : x = y
      · rw [hxy, hrest]
      · simp [hxy] at hx
    · intro hcons
      injection hcons with hxy hrest
      subst hxy; subst hrest
      intro z hz
      rcases hz with rfl | hz
      · simp
      · exact (ih.mpr rfl) z hz

theorem maskBytes_and : ∀ a b : List Nat, MaskBytes a → MaskBytes b →
    MaskBytes (sse2.and_si128 a b)
  | [], _, _, _ => by simp [sse2.and_si128, MaskBytes]
  | _ :: _, [], _, _ => by simp [sse2.and_si128, MaskBytes]
  | x :: l, y :: m, ha, hb => by
    intro z hz
    simp only [sse2.and_si128, List.zipWith_cons_cons] at hz
    rcases List.mem_cons.mp hz with h | h
    · subst h
      rcases ha x (List.mem_cons_self x l) with rfl | rfl <;>
        rcases hb y (List.mem_cons_self y m) with rfl | rfl <;> simp
    · exact maskBytes_and l m (fun z hz => ha z (List.mem_cons_of_mem x hz))
        (fun z hz => hb z (List.mem_cons_of_mem y hz)) z h

theorem allFF_and_iff : ∀ a b : List Nat, a.length = b.length →
    MaskBytes a → MaskBytes b →
    (allFF (sse2.and_si128 a b) ↔ (allFF a ∧ allFF b))
  | [], [], _, _, _ => by simp [sse2.and_si128, allFF]
  | [], _ :: _, hlen, _, _ => by simp at hlen
  | _ :: _, [], hlen, _, _ => by simp at hlen
  | x :: l, y :: m, hlen, ha, hb => by
    have ih := allFF_and_iff l m (by simpa using hlen)
      (fun z hz => ha z (List.mem_cons_of_mem x hz))
      (fun z hz => hb z (List.mem_cons_of_mem y hz))
    simp only [sse2.and_si128, List.zipWith_cons_cons, allFF, List.mem_cons] at *
    constructor
    · intro h
      have hx : x &&& y = 255 := h _ (Or.inl rfl)
      have hrest := ih.mp fun z hz => h z (Or.inr hz)
      have hxy : x = 255 ∧ y = 255 := by
        rcases ha x (List.mem_cons_self x l) with rfl | rfl <;>
          rcases hb y (List.mem_cons_self y m) with rfl | rfl <;> simp_all
      exact ⟨fun z hz => hz.elim (fun h' => h' ▸ hxy.1) (fun h' => hrest.1 z h'),
        fun z hz => hz.elim (fun h' => h' ▸ hxy.2) (fun h' => hrest.2 z h')⟩
    · rintro ⟨h1, h2⟩
      intro z hz
      rcases hz with rfl | hz
      · have : x = 255 := h1 x (Or.inl rfl)
        have : y = 255 := h2 y (Or.inl rfl)
        simp_all
      · exact ih.mpr ⟨fun z hz => h1 z (Or.inr hz), fun z hz => h2 z (Or.inr hz)⟩ z hz

theorem movemask_lt : ∀ m : List Nat, sse2.movemask_epi8 m < 2 ^ m.length
  | [] => by simp [sse2.movemask_epi8]
  | x :: l => by
    have ih := movemask_lt l
    simp only [sse2.movemask_epi8, List.length_cons, Nat.pow_succ]
    by_cases h : x.testBit 7 <;> simp [h] <;> omega

theorem movemask_eq_iff : ∀ m : List Nat, MaskBytes m →
    (sse2.movemask_epi8 m = 2 ^ m.length - 1 ↔ allFF m)
  | [] => by simp [sse2.movemask_epi8, allFF]
  | x :: l => by
    intro hm
    have ih := movemask_eq_iff l (fun z hz => hm z (List.mem_cons_of_mem x hz))
    have hlt := movemask_lt l
    simp only [sse2.movemask_epi8, List.length_cons, Nat.pow_succ, allFF, List.mem_cons] at *
    rcases hm x (List.mem_cons_self x l) with rfl | rfl
    · constructor
      · intro h
        rw [show (if Nat.testBit 0 7 = true then (1 : Nat) else 0) = 0 from rfl] at h
        have hpos : 0 < (2 : Nat) ^ l.length := Nat.two_pow_pos l.length
        exfalso
        omega
      · intro h
        have : (0 : Nat) = 255 := h 0 (Or.inl rfl)
        simp at this
    · constructor
      · intro h
        rw [show (if Nat.testBit 255 7 = true then (1 : Nat) else 0) = 1 from rfl] at h
        have hpos : 0 < (2 : Nat) ^ l.length := Nat.two_pow_pos l.length
        have : sse2.movemask_epi8 l = 2 ^ l.length - 1 := by omega
        intro z hz
        rcases hz with rfl | hz
        · rfl
        · exact ih.mp this z hz
      · intro h
        have : sse2.movemask_epi8 l = 2 ^ l.length - 1 :=
          ih.mpr fun z hz => h z (Or.inr hz)
        rw [show (if Nat.testBit 255 7 = true then (1 : Nat) else 0) = 1 from rfl]
        have hpos : 0 < (2 : Nat) ^ l.length := Nat.two_pow_pos l.length
        omega

/-! ## Overlapping partial loads -/

/-- Two overlapping loads of size `s` covering an `n`-byte range compare
equal exactly when the whole `n`-byte range compares equal. -/
theorem take_overlap_iff (s n : Nat) (a b : List Nat) (hsn : s ≤ n) (hn2 : n ≤ 2 * s)
    (hna : n ≤ a.length) (hnb : n ≤ b.length) :
    (a.take s = b.take s ∧ (a.drop (n - s)).take s = (b.drop (n - s)).take s) ↔
      a.take n = b.take n := by
  constructor
  · rintro ⟨h1, h2⟩
    have h3 : a.take (n - s) = b.take (n - s) := by
      have := congrArg (List.take (n - s)) h1
      rwa [List.take_take, List.take_take, Nat.min_eq_left (by omega)] at this
    have hd : n = (n - s) + s := by omega
    rw [hd, List.take_add, List.take_add, h3, h2]
  · intro h
    constructor
    · have := congrArg (List.take s) h
      rwa [List.take_take, List.take_take, Nat.min_eq_left hsn] at this
    · have := congrArg (List.drop (n - s)) h
      rw [List.drop_take, List.drop_take, show n - (n - s) = s by omega] at this
      exact this

theorem append_overlap_iff (s n : Nat) (a b : List Nat) (hsn : s ≤ n) (hn2 : n ≤ 2 * s)
    (hna : n ≤ a.length) (hnb : n ≤ b.length) :
    (a.take s ++ (a.drop (n - s)).take s = b.take s ++ (b.drop (n - s)).take s) ↔
      a.take n = b.take n := by
  rw [← take_overlap_iff s n a b hsn hn2 hna hnb]
  constructor
  · intro h
    exact List.append_inj h (by simp [List.length_take]; omega)
  · rintro ⟨h1, h2⟩
    rw [h1, h2]

theorem append_right_iff (x y z : List Nat) : (x ++ z = y ++ z) ↔ x = y :=
  ⟨List.append_cancel_right, fun h => by rw [h]⟩

/-- The partial load compares equal on two buffers exactly when the loaded
`n`-byte prefixes are equal: duplicated lanes are duplicated identically on
both sides, and the padding lanes are identical constants. -/
theorem loadu_short_iff (a b : List Nat) (n : Nat) (hn : n ≤ 16)
    (hna : n ≤ a.length) (hnb : n ≤ b.length) :
    (sse2.loadu_short a n = sse2.loadu_short b n) ↔ a.take n = b.take n := by
  unfold sse2.loadu_short
  split_ifs with h1 h2 h3 h4 h5 h6 h7
  · exact append_overlap_iff 8 n a b (by omega) (by omega) hna hnb
  · subst h2
    rw [append_right_iff]
  · rw [append_right_iff]
    exact append_overlap_iff 4 n a b (by omega) (by omega) hna hnb
  · subst h4
    rw [append_right_iff]
  · rw [append_right_iff]
    exact append_overlap_iff 2 n a b (by omega) (by omega) hna hnb
  · subst h6
    rw [append_right_iff]
  · have hone : n = 1 := by omega
    subst hone
    rw [append_right_iff]
  · have hzero : n = 0 := by omega
    subst hzero
    simp

theorem loadu_short_length (a : List Nat) (n : Nat) (hn : n ≤ 16) (hna : n ≤ a.length) :
    (sse2.loadu_short a n).length = 16 := by
  unfold sse2.loadu_short
  split_ifs with h1 h2 h3 h4 h5 h6 h7 <;>
    simp [List.length_take, List.length_drop] <;> omega

theorem take_split_iff (s t : Nat) (a b : List Nat) (hsa : s ≤ a.length) (hsb : s ≤ b.length) :
    (a.take (s + t) = b.take (s + t)) ↔
      (a.take s = b.take s ∧ (a.drop s).take t = (b.drop s).take t) := by
  rw [List.take_add, List.take_add]
  constructor
  · intro h
    exact List.append_inj h (by simp [List.length_take]; omega)
  · rintro ⟨h1, h2⟩
    rw [h1, h2]

theorem sse2_loopAux_spec : ∀ fuel : Nat, ∀ m0 m1 a b : List Nat,
    a.length ≤ fuel → a.length = b.length →
    MaskBytes m0 → MaskBytes m1 → m0.length = 16 → m1.length = 16 →
    (sse2.loopAux fuel m0 m1 a b).2.2.1 = a.drop (32 * (a.length / 32)) ∧
    (sse2.loopAux fuel m0 m1 a b).2.2.2 = b.drop (32 * (a.length / 32)) ∧
    MaskBytes (sse2.loopAux fuel m0 m1 a b).1 ∧
    MaskBytes (sse2.loopAux fuel m0 m1 a b).2.1 ∧
    (sse2.loopAux fuel m0 m1 a b).1.length = 16 ∧
    (sse2.loopAux fuel m0 m1 a b).2.1.length = 16 ∧
    ((allFF (sse2.loopAux fuel m0 m1 a b).1 ∧ allFF (sse2.loopAux fuel m0 m1 a b).2.1) ↔
      (allFF m0 ∧ allFF m1 ∧
        a.take (32 * (a.length / 32)) = b.take (32 * (a.length / 32))))
  | 0, m0, m1, a, b, hfuel, hlen, hm0, hm1, hl0, hl1 => by
    have ha0 : a = [] := List.eq_nil_of_length_eq_zero (Nat.le_zero.mp hfuel)
    subst ha0
    have hb0 : b = [] := List.eq_nil_of_length_eq_zero (by omega)
    subst hb0
    simp [sse2.loopAux, hm0, hm1, hl0, hl1]
  | fuel + 1, m0, m1, a, b, hfuel, hlen, hm0, hm1, hl0, hl1 => by
    by_cases h32 : 32 ≤ a.length
    · have hstep : sse2.loopAux (fuel + 1) m0 m1 a b =
          sse2.loopAux fuel
            (sse2.and_si128 m0 (sse2.cmpeq_epi8 (a.take 16) (b.take 16)))
            (sse2.and_si128 m1 (sse2.cmpeq_epi8 ((a.drop 16).take 16) ((b.drop 16).take 16)))
            (a.drop 32) (b.drop 32) := by
        simp [sse2.loopAux, h32]
      have hc0len : (sse2.cmpeq_epi8 (a.take 16) (b.take 16)).length = 16 := by
        rw [length_cmpeq]
        simp [List.length_take]
        omega
      have hc1len : (sse2.cmpeq_epi8 ((a.drop 16).take 16) ((b.drop 16).take 16)).length = 16 := by
        rw [length_cmpeq]
        simp [List.length_take, List.length_drop]
        omega
      have hm0' : MaskBytes (sse2.and_si128 m0 (sse2.cmpeq_epi8 (a.take 16) (b.take 16))) :=
        maskBytes_and _ _ hm0 (maskBytes_cmpeq _ _)
      have hm1' : MaskBytes (sse2.and_si128 m1
          (sse2.cmpeq_epi8 ((a.drop 16).take 16) ((b.drop 16).take 16))) :=
        maskBytes_and _ _ hm1 (maskBytes_cmpeq _ _)
      have hl0' : (sse2.and_si128 m0 (sse2.cmpeq_epi8 (a.take 16) (b.take 16))).length = 16 := by
        rw [length_and, hl0, hc0len]
        simp
      have hl1' : (sse2.and_si128 m1
          (sse2.cmpeq_epi8 ((a.drop 16).take 16) ((b.drop 16).take 16))).length = 16 := by
        rw [length_and, hl1, hc1len]
        simp
      obtain ⟨ih1, ih2, ih3, ih4, ih5, ih6, ih7⟩ := sse2_loopAux_spec fuel _ _
        (a.drop 32) (b.drop 32)
        (by simp only [List.length_drop]; omega)
        (by simp only [List.length_drop]; omega)
        hm0' hm1' hl0' hl1'
      have hdiv : 32 * ((a.drop 32).length / 32) = 32 * (a.length / 32) - 32 := by
        simp only [List.length_drop]; omega
      have hK : 32 ≤ 32 * (a.length / 32) := by omega
      refine ⟨?_, ?_, ?_, ?_, ?_, ?_, ?_⟩
      · rw [hstep, ih1, List.drop_drop, hdiv]
        congr 1
        omega
      · rw [hstep, ih2, List.drop_drop, hdiv]
        congr 1
        omega
      · rw [hstep]; exact ih3
      · rw [hstep]; exact ih4
      · rw [hstep]; exact ih5
      · rw [hstep]; exact ih6
      · rw [hstep, ih7]
        rw [allFF_and_iff _ _ (by rw [hl0, hc0len]) hm0 (maskBytes_cmpeq _ _)]
        rw [allFF_and_iff _ _ (by rw [hl1, hc1len]) hm1 (maskBytes_cmpeq _ _)]
        rw [allFF_cmpeq_iff _ _ (by simp [List.length_take]; omega)]
        rw [allFF_cmpeq_iff _ _ (by simp [List.length_take, List.length_drop]; omega)]
        have hsplit : (a.take (32 * (a.length / 32)) = b.take (32 * (a.length / 32))) ↔
            (a.take 16 = b.take 16 ∧ (a.drop 16).take 16 = (b.drop 16).take 16 ∧
              (a.drop 32).take (32 * ((a.drop 32).length / 32)) =
                (b.drop 32).take (32 * ((b.drop 32).length / 32))) := by
          rw [show (32 * (a.length / 32)) = 16 + (16 + 32 * ((a.drop 32).length / 32)) by
            simp only [List.length_drop]; omega]
          rw [take_split_iff 16 _ a b (by omega) (by omega)]
          rw [take_split_iff 16 _ (a.drop 16) (b.drop 16)
            (by simp only [List.length_drop]; omega) (by simp only [List.length_drop]; omega)]
          rw [List.drop_drop, List.drop_drop]
          rw [show (b.drop 32).length = (a.drop 32).length by
            simp only [List.length_drop]; omega]
        rw [hsplit]
        rw [show (b.drop 32).length = (a.drop 32).length by
          simp only [List.length_drop]; omega] at *
        tauto
    · have hK0 : a.length / 32 = 0 := Nat.div_eq_of_lt (by omega)
      simp [sse2.loopAux, h32, hK0, hm0, hm1, hl0, hl1]

/-- Full functional correctness of the SSE2 vector engine: with the length
of `a` used as the byte count (as the callers do), it returns `true` exactly
when the two equal-length inputs are byte-wise equal. -/
theorem sse2_correct (a b : List Nat) (hlen : a.length = b.length) :
    (sse2.constant_time_eq_sse2 a b = true) ↔ a = b := by
  unfold sse2.constant_time_eq_sse2
  by_cases h32 : 32 ≤ a.length
  · rw [if_pos h32]
    dsimp only
    obtain ⟨s1, s2, s3, s4, s5, s6, s7⟩ := sse2_loopAux_spec (a.drop 32).length
      (sse2.cmpeq_epi8 (a.take 16) (b.take 16))
      (sse2.cmpeq_epi8 ((a.drop 16).take 16) ((b.drop 16).take 16))
      (a.drop 32) (b.drop 32)
      (Nat.le_refl _)
      (by simp only [List.length_drop]; omega)
      (maskBytes_cmpeq _ _) (maskBytes_cmpeq _ _)
      (by rw [length_cmpeq]; simp [List.length_take]; omega)
      (by rw [length_cmpeq]; simp [List.length_take, List.length_drop]; omega)
    rcases hr : sse2.loopAux (a.drop 32).length
        (sse2.cmpeq_epi8 (a.take 16) (b.take 16))
        (sse2.cmpeq_epi8 ((a.drop 16).take 16) ((b.drop 16).take 16))
        (a.drop 32) (b.drop 32) with ⟨q0, q1, ra, rb⟩
    rw [hr] at s1 s2 s3 s4 s5 s6 s7
    dsimp only at s1 s2 s3 s4 s5 s6 s7 ⊢
    have hraln : ra.length = (a.drop 32).length - 32 * ((a.drop 32).length / 32) := by
      rw [s1]
      simp only [List.length_drop]
    have hrbln : rb.length = ra.length := by
      rw [s1, s2]
      simp only [List.length_drop]
      omega
    have hralt : ra.length < 32 := by
      rw [hraln]
      simp only [List.length_drop]
      omega
    -- rewrite the accumulated-mask characterisation of the loop
    rw [allFF_cmpeq_iff _ _ (by simp [List.length_take]; omega)] at s7
    rw [allFF_cmpeq_iff _ _ (by simp [List.length_take, List.length_drop]; omega)] at s7
    -- decomposition of a = b into the chunk equalities
    have hsplitA := eq_iff_split 16 a b
    have hsplitB := eq_iff_split 16 (a.drop 16) (b.drop 16)
    simp only [List.drop_drop] at hsplitB
    norm_num at hsplitB
    have hsplit3 := eq_iff_split (32 * ((a.drop 32).length / 32)) (a.drop 32) (b.drop 32)
    rw [← s1, ← s2] at hsplit3
    have hsplit4 := eq_iff_split 16 ra rb
    by_cases h16r : 16 ≤ ra.length
    · simp only [if_pos h16r]
      by_cases hremr : 0 < (ra.drop 16).length
      · rw [if_pos hremr]
        have hds : (ra.drop 16).length ≤ (rb.drop 16).length := by
          simp only [List.length_drop]
          omega
        have hc4l : (sse2.cmpeq_epi8 (ra.take 16) (rb.take 16)).length = 16 := by
          rw [length_cmpeq]
          simp [List.length_take]
          omega
        have hc5l : (sse2.cmpeq_epi8 (sse2.loadu_short (ra.drop 16) (ra.drop 16).length)
            (sse2.loadu_short (rb.drop 16) (ra.drop 16).length)).length = 16 := by
          rw [length_cmpeq,
            loadu_short_length _ _ (by simp only [List.length_drop]; omega) (Nat.le_refl _),
            loadu_short_length _ _ (by simp only [List.length_drop]; omega) hds]
          simp
        have hm0'b : MaskBytes (sse2.and_si128 q0 (sse2.cmpeq_epi8 (ra.take 16) (rb.take 16))) :=
          maskBytes_and _ _ s3 (maskBytes_cmpeq _ _)
        have hm1'b : MaskBytes (sse2.and_si128 q1
            (sse2.cmpeq_epi8 (sse2.loadu_short (ra.drop 16) (ra.drop 16).length)
              (sse2.loadu_short (rb.drop 16) (ra.drop 16).length))) :=
          maskBytes_and _ _ s4 (maskBytes_cmpeq _ _)
        have hm0'l : (sse2.and_si128 q0
            (sse2.cmpeq_epi8 (ra.take 16) (rb.take 16))).length = 16 := by
          rw [length_and, s5, hc4l]
          simp
        have hm1'l : (sse2.and_si128 q1
            (sse2.cmpeq_epi8 (sse2.loadu_short (ra.drop 16) (ra.drop 16).length)
              (sse2.loadu_short (rb.drop 16) (ra.drop 16).length))).length = 16 := by
          rw [length_and, s6, hc5l]
          simp
        have hfin := movemask_eq_iff _ (maskBytes_and _ _ hm0'b hm1'b)
        rw [length_and, hm0'l, hm1'l, Nat.min_self] at hfin
        rw [beq_iff_eq, show (65535 : Nat) = 2 ^ 16 - 1 from by norm_num, hfin]
        rw [allFF_and_iff _ _ (by rw [hm0'l, hm1'l]) hm0'b hm1'b]
        rw [allFF_and_iff _ _ (by rw [s5, hc4l]) s3 (maskBytes_cmpeq _ _)]
        rw [allFF_and_iff _ _ (by rw [s6, hc5l]) s4 (maskBytes_cmpeq _ _)]
        rw [allFF_cmpeq_iff _ _ (by simp [List.length_take]; omega)]
        rw [allFF_cmpeq_iff _ _ (by
          rw [loadu_short_length _ _ (by simp only [List.length_drop]; omega) (Nat.le_refl _),
            loadu_short_length _ _ (by simp only [List.length_drop]; omega) hds])]
        rw [loadu_short_iff _ _ _ (by simp only [List.length_drop]; omega) (Nat.le_refl _) hds]
        rw [List.take_length]
        rw [show (ra.drop 16).length = (rb.drop 16).length by
          simp only [List.length_drop]; omega, List.take_length]
        rw [hsplitA, hsplitB, hsplit3, hsplit4]
        constructor
        · rintro ⟨⟨hq0, hT4⟩, hq1, hT5⟩
          obtain ⟨p1, p2, p3⟩ := s7.mp ⟨hq0, hq1⟩
          exact ⟨p1, p2, p3, hT4, hT5⟩
        · rintro ⟨p1, p2, p3, hT4, hT5⟩
          obtain ⟨hq0, hq1⟩ := s7.mpr ⟨p1, p2, p3⟩
          exact ⟨⟨hq0, hT4⟩, hq1, hT5⟩
      · rw [if_neg hremr]
        simp only [List.length_drop] at hremr
        have hc4l : (sse2.cmpeq_epi8 (ra.take 16) (rb.take 16)).length = 16 := by
          rw [length_cmpeq]
          simp [List.length_take]
          omega
        have hm0'b : MaskBytes (sse2.and_si128 q0 (sse2.cmpeq_epi8 (ra.take 16) (rb.take 16))) :=
          maskBytes_and _ _ s3 (maskBytes_cmpeq _ _)
        have hm0'l : (sse2.and_si128 q0
            (sse2.cmpeq_epi8 (ra.take 16) (rb.take 16))).length = 16 := by
          rw [length_and, s5, hc4l]
          simp
        have hfin := movemask_eq_iff _ (maskBytes_and _ _ hm0'b s4)
        rw [length_and, hm0'l, s6, Nat.min_self] at hfin
        rw [beq_iff_eq, show (65535 : Nat) = 2 ^ 16 - 1 from by norm_num, hfin]
        rw [allFF_and_iff _ _ (by rw [hm0'l, s6]) hm0'b s4]
        rw [allFF_and_iff _ _ (by rw [s5, hc4l]) s3 (maskBytes_cmpeq _ _)]
        rw [allFF_cmpeq_iff _ _ (by simp [List.length_take]; omega)]
        have hdnil : ra.drop 16 = rb.drop 16 :=
          list_eq_of_length_zero (by simp only [List.length_drop]; omega)
            (by simp only [List.length_drop]; omega)
        have hta : ra.take 16 = ra := List.take_of_length_le (by omega)
        have htb : rb.take 16 = rb := List.take_of_length_le (by omega)
        rw [hsplitA, hsplitB, hsplit3, hta, htb]
        constructor
        · rintro ⟨⟨hq0, hT⟩, hq1⟩
          obtain ⟨p1, p2, p3⟩ := s7.mp ⟨hq0, hq1⟩
          exact ⟨p1, p2, p3, hT⟩
        · rintro ⟨p1, p2, p3, hT⟩
          obtain ⟨hq0, hq1⟩ := s7.mpr ⟨p1, p2, p3⟩
          exact ⟨⟨hq0, hT⟩, hq1⟩
    · simp only [if_neg h16r]
      by_cases hremr : 0 < ra.length
      · rw [if_pos hremr]
        have hds : ra.length ≤ rb.length := by omega
        have hc5l : (sse2.cmpeq_epi8 (sse2.loadu_short ra ra.length)
            (sse2.loadu_short rb ra.length)).length = 16 := by
          rw [length_cmpeq,
            loadu_short_length _ _ (by omega) (Nat.le_refl _),
            loadu_short_length _ _ (by omega) hds]
          simp
        have hm1'b : MaskBytes (sse2.and_si128 q1
            (sse2.cmpeq_epi8 (sse2.loadu_short ra ra.length) (sse2.loadu_short rb ra.length))) :=
          maskBytes_and _ _ s4 (maskBytes_cmpeq _ _)
        have hm1'l : (sse2.and_si128 q1
            (sse2.cmpeq_epi8 (sse2.loadu_short ra ra.length)
              (sse2.loadu_short rb ra.length))).length = 16 := by
          rw [length_and, s6, hc5l]
          simp
        have hfin := movemask_eq_iff _ (maskBytes_and _ _ s3 hm1'b)
        rw [length_and, s5, hm1'l, Nat.min_self] at hfin
        rw [beq_iff_eq, show (65535 : Nat) = 2 ^ 16 - 1 from by norm_num, hfin]
        rw [allFF_and_iff _ _ (by rw [s5, hm1'l]) s3 hm1'b]
        rw [allFF_and_iff _ _ (by rw [s6, hc5l]) s4 (maskBytes_cmpeq _ _)]
        rw [allFF_cmpeq_iff _ _ (by
          rw [loadu_short_length _ _ (by omega) (Nat.le_refl _),
            loadu_short_length _ _ (by omega) hds])]
        rw [loadu_short_iff _ _ _ (by omega) (Nat.le_refl _) hds]
        have hrbt : rb.take ra.length = rb := by
          rw [← hrbln]
          exact List.take_length rb
        rw [List.take_length, hrbt]
        rw [hsplitA, hsplitB, hsplit3]
        constructor
        · rintro ⟨hq0, hq1, hT⟩
          obtain ⟨p1, p2, p3⟩ := s7.mp ⟨hq0, hq1⟩
          exact ⟨p1, p2, p3, hT⟩
        · rintro ⟨p1, p2, p3, hT⟩
          obtain ⟨hq0, hq1⟩ := s7.mpr ⟨p1, p2, p3⟩
          exact ⟨hq0, hq1, hT⟩
      · rw [if_neg hremr]
        have hfin := movemask_eq_iff _ (maskBytes_and _ _ s3 s4)
        rw [length_and, s5, s6, Nat.min_self] at hfin
        rw [beq_iff_eq, show (65535 : Nat) = 2 ^ 16 - 1 from by norm_num, hfin]
        rw [allFF_and_iff _ _ (by rw [s5, s6]) s3 s4]
        have hnil : ra = rb := list_eq_of_length_zero (by omega) (by omega)
        rw [hsplitA, hsplitB, hsplit3]
        constructor
        · rintro ⟨hq0, hq1⟩
          obtain ⟨p1, p2, p3⟩ := s7.mp ⟨hq0, hq1⟩
          exact ⟨p1, p2, p3, hnil⟩
        · rintro ⟨p1, p2, p3, _⟩
          exact s7.mpr ⟨p1, p2, p3⟩
  · rw [if_neg h32]
    by_cases h16 : 16 ≤ a.length
    · rw [if_pos h16]
      dsimp only
      by_cases hrem : 0 < (a.drop 16).length
      · rw [if_pos hrem]
        have hmb : MaskBytes (sse2.and_si128
            (sse2.cmpeq_epi8 (a.take 16) (b.take 16))
            (sse2.cmpeq_epi8 (sse2.loadu_short (a.drop 16) (a.drop 16).length)
              (sse2.loadu_short (b.drop 16) (a.drop 16).length))) :=
          maskBytes_and _ _ (maskBytes_cmpeq _ _) (maskBytes_cmpeq _ _)
        have hc0l : (sse2.cmpeq_epi8 (a.take 16) (b.take 16)).length = 16 := by
          rw [length_cmpeq]
          simp [List.length_take]
          omega
        have hdl : (a.drop 16).length ≤ (b.drop 16).length := by
          simp only [List.length_drop]
          omega
        have hc1l : (sse2.cmpeq_epi8 (sse2.loadu_short (a.drop 16) (a.drop 16).length)
            (sse2.loadu_short (b.drop 16) (a.drop 16).length)).length = 16 := by
          rw [length_cmpeq, loadu_short_length _ _ (by simp only [List.length_drop]; omega)
              (Nat.le_refl _),
            loadu_short_length _ _ (by simp only [List.length_drop]; omega) hdl]
          simp
        have hml : (sse2.and_si128
            (sse2.cmpeq_epi8 (a.take 16) (b.take 16))
            (sse2.cmpeq_epi8 (sse2.loadu_short (a.drop 16) (a.drop 16).length)
              (sse2.loadu_short (b.drop 16) (a.drop 16).length))).length = 16 := by
          rw [length_and, hc0l, hc1l]
          simp
        have h := movemask_eq_iff _ hmb
        rw [hml] at h
        rw [beq_iff_eq, show (65535 : Nat) = 2 ^ 16 - 1 from by norm_num, h]
        rw [allFF_and_iff _ _ (by rw [hc0l, hc1l]) (maskBytes_cmpeq _ _) (maskBytes_cmpeq _ _)]
        rw [allFF_cmpeq_iff _ _ (by simp [List.length_take]; omega)]
        rw [allFF_cmpeq_iff _ _ (by
          rw [loadu_short_length _ _ (by simp only [List.length_drop]; omega) (Nat.le_refl _),
            loadu_short_length _ _ (by simp only [List.length_drop]; omega) hdl])]
        rw [loadu_short_iff _ _ _ (by simp only [List.length_drop]; omega) (Nat.le_refl _) hdl]
        rw [List.take_length]
        rw [show (a.drop 16).length = (b.drop 16).length by simp only [List.length_drop]; omega,
          List.take_length]
        rw [eq_iff_split 16 a b]
      · rw [if_neg hrem]
        have hc0l : (sse2.cmpeq_epi8 (a.take 16) (b.take 16)).length = 16 := by
          rw [length_cmpeq]
          simp [List.length_take]
          omega
        have h := movemask_eq_iff _ (maskBytes_cmpeq (a.take 16) (b.take 16))
        rw [hc0l] at h
        rw [beq_iff_eq, show (65535 : Nat) = 2 ^ 16 - 1 from by norm_num, h]
        rw [allFF_cmpeq_iff _ _ (by simp [List.length_take]; omega)]
        have ha16 : a.take 16 = a :=
          List.take_of_length_le (by simp only [List.length_drop] at hrem; omega)
        have hb16 : b.take 16 = b :=
          List.take_of_length_le (by simp only [List.length_drop] at hrem; omega)
        rw [ha16, hb16]
    · rw [if_neg h16]
      by_cases h0 : 0 < a.length
      · rw [if_pos h0]
        have hmb := maskBytes_cmpeq (sse2.loadu_short a a.length) (sse2.loadu_short b a.length)
        have hbl : a.length ≤ b.length := by omega
        have hml : (sse2.cmpeq_epi8 (sse2.loadu_short a a.length)
            (sse2.loadu_short b a.length)).length = 16 := by
          rw [length_cmpeq, loadu_short_length _ _ (by omega) (Nat.le_refl _),
            loadu_short_length _ _ (by omega) hbl]
          simp
        have h := movemask_eq_iff _ hmb
        rw [hml] at h
        rw [beq_iff_eq, show (65535 : Nat) = 2 ^ 16 - 1 from by norm_num, h]
        rw [allFF_cmpeq_iff _ _ (by
          rw [loadu_short_length _ _ (by omega) (Nat.le_refl _),
            loadu_short_length _ _ (by omega) hbl])]
        rw [loadu_short_iff _ _ _ (by omega) (Nat.le_refl _) hbl]
        rw [List.take_length, hlen, List.take_length]
      · rw [if_neg h0]
        have ha0 : a = [] := List.eq_nil_of_length_eq_zero (by omega)
        have hb0 : b = [] := List.eq_nil_of_length_eq_zero (by omega)
        subst ha0
        subst hb0
        simp

/-! ## The NEON vector engine (`neon.rs`) -/

namespace neon

/-- Models `neon::vceqq_u8_hide` (the hidden `cmeq`): per-byte-lane equality
mask, `0xFF` for equal lanes and `0x00` for different lanes. -/
def vceqq_u8_hide (a b : List Nat) : List Nat :=
  List.zipWith (fun x y => if x = y then 255 else 0) a b

/-- Models `neon::vandq_u8_hide` (the hidden `and`): lane-wise bitwise AND. -/
def vandq_u8_hide (a b : List Nat) : List Nat :=
  List.zipWith (fun x y => x &&& y) a b

/-- Models `neon::vshrn_n_u16_4_hide` (the hidden `shrn #4`), applied to the
byte lanes of a mask reinterpreted as eight little-endian `u16` lanes: each
16-bit lane is shifted right by 4 and narrowed to its low 8 bits. -/
def vshrn_n_u16_4_hide : List Nat → List Nat
  | [] => []
  | [_] => []
  | lo :: hi :: rest => (((lo + 256 * hi) >>> 4) % 256) :: vshrn_n_u16_4_hide rest

/-- The `k` little-endian bytes of a machine integer (used to model
`vcreate_u8`, which builds a vector half from a `u64`). -/
def leBytes : Nat → Nat → List Nat
  | 0, _ => []
  | k + 1, x => x % 256 :: leBytes k (x / 256)

/-- Models `vcreate_u8`: the eight little-endian bytes of a `u64`. -/
def vcreate_u8 (x : Nat) : List Nat := leBytes 8 x

/-- Models `neon::load_unaligned::<T>` for a `T` of `s` bytes: one unaligned
little-endian read widened to `u64` in the low half, zero in the high half. -/
def load_unaligned (s : Nat) (p : List Nat) : List Nat :=
  vcreate_u8 (leVal (p.take s)) ++ vcreate_u8 0

/-- Models `neon::load_unaligned_pair::<A, B>` for `A` of `sA` bytes and `B`
of `sB` bytes: two consecutive unaligned reads combined with a shift-or into
the low half, zero in the high half. -/
def load_unaligned_pair (sA sB : Nat) (p : List Nat) : List Nat :=
  vcreate_u8 (leVal (p.take sA) ||| (leVal ((p.drop sA).take sB) <<< (sA * 8))) ++ vcreate_u8 0

/-- Models the partial-register load of `neon.rs` (`vld1q_u8_…` with
`n ≤ 16`; the Rust identifier's suffix cannot be used in a Lean name here):
the `match n` dispatch over overlapping, exact and shift-or loads. -/
def vld1q_u8_short (p : List Nat) (n : Nat) : List Nat :=
  if 9 ≤ n then p.take 8 ++ (p.drop (n - 8)).take 8
  else if n = 8 then p.take 8 ++ vcreate_u8 0
  else if n = 7 then
    vcreate_u8 (leVal (p.take 4)) ++ vcreate_u8 (leVal ((p.drop (n - 4)).take 4))
  else if n = 6 then load_unaligned_pair 4 2 p
  else if n = 5 then load_unaligned_pair 4 1 p
  else if n = 4 then load_unaligned 4 p
  else if n = 3 then load_unaligned_pair 2 1 p
  else if n = 2 then load_unaligned 2 p
  else if n = 1 then load_unaligned 1 p
  else vcreate_u8 0 ++ vcreate_u8 0

/-- Models the `while n >= LANES * 2` loop of `constant_time_eq_neon`
(fuel-style): `vld1q_u8_x2` loads two 16-byte chunks per iteration, which are
compared and AND-folded into the two running masks. -/
def loopAux : Nat → List Nat → List Nat → List Nat → List Nat →
    List Nat × List Nat × List Nat × List Nat
  | 0, mask0, mask1, a, b => (mask0, mask1, a, b)
  | fuel + 1, mask0, mask1, a, b =>
    if 32 ≤ a.length then
      loopAux fuel
        (vandq_u8_hide mask0 (vceqq_u8_hide (a.take 16) (b.take 16)))
        (vandq_u8_hide mask1 (vceqq_u8_hide ((a.drop 16).take 16) ((b.drop 16).take 16)))
        (a.drop 32) (b.drop 32)
    else (mask0, mask1, a, b)

/-- Models `neon::constant_time_eq_neon(a, b, n)`, with `n = a.length` (the
function receives a single length, taken from `a`, for both pointers).  The
final test narrows the mask with `shrn #4` and compares the resulting 64-bit
lane against all-ones. -/
def constant_time_eq_neon (a b : List Nat) : Bool :=
  if 32 ≤ a.length then
    let m0 := vceqq_u8_hide (a.take 16) (b.take 16)
    let m1 := vceqq_u8_hide ((a.drop 16).take 16) ((b.drop 16).take 16)
    let r := loopAux (a.drop 32).length m0 m1 (a.drop 32) (b.drop 32)
    let ra := r.2.2.1
    let rb := r.2.2.2
    let m0' := if 16 ≤ ra.length then
        vandq_u8_hide r.1 (vceqq_u8_hide (ra.take 16) (rb.take 16))
      else r.1
    let ra' := if 16 ≤ ra.length then ra.drop 16 else ra
    let rb' := if 16 ≤ ra.length then rb.drop 16 else rb
    let m1' := if 0 < ra'.length then
        vandq_u8_hide r.2.1
          (vceqq_u8_hide (vld1q_u8_short ra' ra'.length) (vld1q_u8_short rb' ra'.length))
      else r.2.1
    leVal (vshrn_n_u16_4_hide (vandq_u8_hide m0' m1')) == 2 ^ 64 - 1
  else if 16 ≤ a.length then
    let m := vceqq_u8_hide (a.take 16) (b.take 16)
    let m' := if 0 < (a.drop 16).length then
        vandq_u8_hide m (vceqq_u8_hide (vld1q_u8_short (a.drop 16) (a.drop 16).length)
          (vld1q_u8_short (b.drop 16) (a.drop 16).length))
      else m
    leVal (vshrn_n_u16_4_hide m') == 2 ^ 64 - 1
  else if 0 < a.length then
    leVal (vshrn_n_u16_4_hide
      (vceqq_u8_hide (vld1q_u8_short a a.length) (vld1q_u8_short b a.length))) == 2 ^ 64 - 1
  else true

/-- Models `neon::constant_time_eq`: explicit length check, then the engine. -/
def constant_time_eq (a b : List Nat) : Bool :=
  a.length == b.length && constant_time_eq_neon a b

/-- Models `neon::constant_time_eq_n::<N>`: both arrays have length `N`, so
no length check is performed. -/
def constant_time_eq_n (a b : List Nat) : Bool :=
  constant_time_eq_neon a b

end neon

/-! ## NEON load and narrowing lemmas -/

theorem lor_shiftLeft_eq_add (k x y : Nat) (h : x < 2 ^ k) :
    x ||| (y <<< k) = x + 2 ^ k * y := by
  apply Nat.eq_of_testBit_eq
  intro i
  rw [Nat.testBit_or, Nat.testBit_shiftLeft]
  by_cases hik : i < k
  · have hmod : (x + 2 ^ k * y) % 2 ^ k = x := by
      rw [Nat.add_mul_mod_self_left]
      exact Nat.mod_eq_of_lt h
    have h1 : (x + 2 ^ k * y).testBit i = ((x + 2 ^ k * y) % 2 ^ k).testBit i := by
      rw [Nat.testBit_mod_two_pow]
      simp [hik]
    rw [h1, hmod]
    simp [show ¬ k ≤ i by omega]
  · have hx : x.testBit i = false :=
      Nat.testBit_lt_two_pow (lt_of_lt_of_le h (Nat.pow_le_pow_right (by omega) (by omega)))
    have hdiv : (x + 2 ^ k * y) >>> k = y := by
      rw [Nat.shiftRight_eq_div_pow]
      rw [Nat.add_mul_div_left _ _ (Nat.two_pow_pos k)]
      rw [Nat.div_eq_of_lt h]
      omega
    have h3 : ((x + 2 ^ k * y) >>> k).testBit (i - k) =
        (x + 2 ^ k * y).testBit (k + (i - k)) := Nat.testBit_shiftRight _
    rw [hdiv] at h3
    have h2 : (x + 2 ^ k * y).testBit i = y.testBit (i - k) := by
      have hi : k + (i - k) = i := by omega
      rw [hi] at h3
      exact h3.symm
    rw [h2, hx]
    simp [show k ≤ i by omega]

theorem leBytes_length : ∀ k x : Nat, (neon.leBytes k x).length = k
  | 0, _ => rfl
  | k + 1, x => by simp [neon.leBytes, leBytes_length k]

theorem leBytes_zero : ∀ k : Nat, neon.leBytes k 0 = List.replicate k 0
  | 0 => rfl
  | k + 1 => by simp [neon.leBytes, leBytes_zero k, List.replicate_succ]

theorem leBytes_leVal : ∀ (xs : List Nat) (k : Nat), Bytes xs → xs.length ≤ k →
    neon.leBytes k (leVal xs) = xs ++ List.replicate (k - xs.length) 0
  | [], k, _, _ => by simp [leVal, leBytes_zero]
  | x :: xs, 0, _, hk => by simp at hk
  | x :: xs, k + 1, hb, hk => by
    have hx : x < 256 := hb x (List.mem_cons_self x xs)
    have h1 : (x + 256 * leVal xs) % 256 = x := by omega
    have h2 : (x + 256 * leVal xs) / 256 = leVal xs := by omega
    simp only [leVal, neon.leBytes, h1, h2]
    rw [leBytes_leVal xs k (fun z hz => hb z (List.mem_cons_of_mem x hz)) (by simpa using hk)]
    simp

theorem vcreate_zero : neon.vcreate_u8 0 = List.replicate 8 0 := by
  rw [neon.vcreate_u8, leBytes_zero]

theorem load_unaligned_eq (s : Nat) (p : List Nat) (hs : s ≤ 8) (hp : s ≤ p.length)
    (hb : Bytes p) :
    neon.load_unaligned s p = p.take s ++ List.replicate (16 - s) 0 := by
  unfold neon.load_unaligned
  rw [vcreate_zero, neon.vcreate_u8]
  have ht : (p.take s).length = s := by
    rw [List.length_take]
    omega
  rw [leBytes_leVal (p.take s) 8 (bytes_take p hb s) (by omega)]
  rw [List.append_assoc, ht, ← List.replicate_add]
  congr 2
  omega

theorem load_unaligned_pair_eq (sA sB : Nat) (p : List Nat) (h8 : sA + sB ≤ 8)
    (hp : sA + sB ≤ p.length) (hb : Bytes p) :
    neon.load_unaligned_pair sA sB p = p.take (sA + sB) ++ List.replicate (16 - (sA + sB)) 0 := by
  unfold neon.load_unaligned_pair
  have htA : (p.take sA).length = sA := by
    rw [List.length_take]
    omega
  have hlt : leVal (p.take sA) < 2 ^ (sA * 8) := by
    have := leVal_lt (p.take sA) (bytes_take p hb sA)
    rw [htA] at this
    rw [Nat.mul_comm]
    exact this
  rw [lor_shiftLeft_eq_add _ _ _ hlt]
  have happ : leVal (p.take sA) + 2 ^ (sA * 8) * leVal ((p.drop sA).take sB) =
      leVal (p.take sA ++ (p.drop sA).take sB) := by
    rw [leVal_append, htA, Nat.mul_comm 8 sA]
  rw [happ, ← List.take_add]
  rw [vcreate_zero, neon.vcreate_u8]
  have htAB : (p.take (sA + sB)).length = sA + sB := by
    rw [List.length_take]
    omega
  rw [leBytes_leVal (p.take (sA + sB)) 8 (bytes_take p hb (sA + sB)) (by omega)]
  rw [List.append_assoc, htAB, ← List.replicate_add]
  congr 2
  omega

set_option maxHeartbeats 1600000 in
theorem vld1q_short_iff (a b : List Nat) (n : Nat) (hn : n ≤ 16)
    (hna : n ≤ a.length) (hnb : n ≤ b.length) (hba : Bytes a) (hbb : Bytes b) :
    (neon.vld1q_u8_short a n = neon.vld1q_u8_short b n) ↔ a.take n = b.take n := by
  unfold neon.vld1q_u8_short
  split_ifs with h1 h2 h3 h4 h5 h6 h7 h8 h9
  · exact append_overlap_iff 8 n a b (by omega) (by omega) hna hnb
  · subst h2
    rw [append_right_iff]
  · subst h3
    have e1a : neon.vcreate_u8 (leVal (a.take 4)) = a.take 4 ++ List.replicate 4 0 := by
      rw [neon.vcreate_u8, leBytes_leVal (a.take 4) 8 (bytes_take a hba 4)
        (by rw [List.length_take]; omega)]
      congr 1
      rw [List.length_take]
      congr 1
      omega
    have e1b : neon.vcreate_u8 (leVal (b.take 4)) = b.take 4 ++ List.replicate 4 0 := by
      rw [neon.vcreate_u8, leBytes_leVal (b.take 4) 8 (bytes_take b hbb 4)
        (by rw [List.length_take]; omega)]
      congr 1
      rw [List.length_take]
      congr 1
      omega
    have e2a : neon.vcreate_u8 (leVal ((a.drop 3).take 4)) =
        (a.drop 3).take 4 ++ List.replicate 4 0 := by
      rw [neon.vcreate_u8, leBytes_leVal ((a.drop 3).take 4)
        8 (bytes_take _ (bytes_drop a hba 3) 4)
        (by rw [List.length_take]; omega)]
      congr 1
      rw [List.length_take, List.length_drop]
      congr 1
      omega
    have e2b : neon.vcreate_u8 (leVal ((b.drop 3).take 4)) =
        (b.drop 3).take 4 ++ List.replicate 4 0 := by
      rw [neon.vcreate_u8, leBytes_leVal ((b.drop 3).take 4)
        8 (bytes_take _ (bytes_drop b hbb 3) 4)
        (by rw [List.length_take]; omega)]
      congr 1
      rw [List.length_take, List.length_drop]
      congr 1
      omega
    rw [show (7 : Nat) - 4 = 3 from rfl, e1a, e1b, e2a, e2b]
    constructor
    · intro h
      obtain ⟨hfst, hsnd⟩ := List.append_inj h
        (by simp [List.length_take]; omega)
      have hx1 := List.append_cancel_right hfst
      have hx2 := List.append_cancel_right hsnd
      exact (take_overlap_iff 4 7 a b (by omega) (by omega) hna hnb).mp
        ⟨hx1, by simpa using hx2⟩
    · intro h
      obtain ⟨hx1, hx2⟩ := (take_overlap_iff 4 7 a b (by omega) (by omega) hna hnb).mpr h
      rw [hx1]
      simp only [show (7 : Nat) - 4 = 3 from rfl] at hx2
      rw [hx2]
  · subst h4
    rw [load_unaligned_pair_eq 4 2 a (by omega) (by omega) hba,
      load_unaligned_pair_eq 4 2 b (by omega) (by omega) hbb]
    rw [append_right_iff]
  · subst h5
    rw [load_unaligned_pair_eq 4 1 a (by omega) (by omega) hba,
      load_unaligned_pair_eq 4 1 b (by omega) (by omega) hbb]
    rw [append_right_iff]
  · subst h6
    rw [load_unaligned_eq 4 a (by omega) (by omega) hba,
      load_unaligned_eq 4 b (by omega) (by omega) hbb]
    rw [append_right_iff]
  · subst h7
    rw [load_unaligned_pair_eq 2 1 a (by omega) (by omega) hba,
      load_unaligned_pair_eq 2 1 b (by omega) (by omega) hbb]
    rw [append_right_iff]
  · subst h8
    rw [load_unaligned_eq 2 a (by omega) (by omega) hba,
      load_unaligned_eq 2 b (by omega) (by omega) hbb]
    rw [append_right_iff]
  · subst h9
    rw [load_unaligned_eq 1 a (by omega) (by omega) hba,
      load_unaligned_eq 1 b (by omega) (by omega) hbb]
    rw [append_right_iff]
  · have hzero : n = 0 := by omega
    subst hzero
    simp

theorem vshrn4_length : ∀ m : List Nat, (neon.vshrn_n_u16_4_hide m).length = m.length / 2
  | [] => by simp [neon.vshrn_n_u16_4_hide]
  | [_] => by simp [neon.vshrn_n_u16_4_hide]
  | _ :: _ :: rest => by
    simp only [neon.vshrn_n_u16_4_hide, List.length_cons, vshrn4_length rest]
    omega

theorem vshrn4_bytes : ∀ m : List Nat, Bytes (neon.vshrn_n_u16_4_hide m)
  | [] => by simp [neon.vshrn_n_u16_4_hide, Bytes]
  | [_] => by simp [neon.vshrn_n_u16_4_hide, Bytes]
  | lo :: hi :: rest => by
    intro z hz
    simp only [neon.vshrn_n_u16_4_hide] at hz
    rcases List.mem_cons.mp hz with rfl | hz
    · exact Nat.mod_lt _ (by omega)
    · exact vshrn4_bytes rest z hz

theorem narrow_eq_255_iff (lo hi : Nat) (hlo : lo = 0 ∨ lo = 255) (hhi : hi = 0 ∨ hi = 255) :
    ((((lo + 256 * hi) >>> 4) % 256) = 255) ↔ (lo = 255 ∧ hi = 255) := by
  rcases hlo with rfl | rfl <;> rcases hhi with rfl | rfl <;> decide

/-- The narrowed 64-bit value of a 0x00/0xFF lane mask is all-ones exactly
when every lane of the mask is 0xFF. -/
theorem vshrn4_allones : ∀ m : List Nat, MaskBytes m → m.length % 2 = 0 →
    (leVal (neon.vshrn_n_u16_4_hide m) = 2 ^ (4 * m.length) - 1 ↔ allFF m)
  | [] => by
    intro _ _
    simp [neon.vshrn_n_u16_4_hide, leVal, allFF]
  | [_] => by
    intro _ h
    simp at h
  | lo :: hi :: rest => by
    intro hm heven
    have heven' : rest.length % 2 = 0 := by
      simp only [List.length_cons] at heven
      omega
    have ih := vshrn4_allones rest
      (fun z hz => hm z (List.mem_cons_of_mem lo (List.mem_cons_of_mem hi hz)))
      heven'
    have hlt : leVal (neon.vshrn_n_u16_4_hide rest) < 2 ^ (4 * rest.length) := by
      have := leVal_lt (neon.vshrn_n_u16_4_hide rest) (vshrn4_bytes rest)
      rw [vshrn4_length rest] at this
      have harith : 8 * (rest.length / 2) = 4 * rest.length := by omega
      rwa [harith] at this
    have hnarrow : ((lo + 256 * hi) >>> 4) % 256 < 256 := Nat.mod_lt _ (by omega)
    simp only [neon.vshrn_n_u16_4_hide, leVal]
    have hpow : 2 ^ (4 * (lo :: hi :: rest).length) = 256 * 2 ^ (4 * rest.length) := by
      simp only [List.length_cons]
      rw [show 4 * (rest.length + 1 + 1) = 8 + 4 * rest.length by omega, Nat.pow_add]
    rw [hpow]
    have hsplit : (((lo + 256 * hi) >>> 4) % 256 + 256 * leVal (neon.vshrn_n_u16_4_hide rest) =
        256 * 2 ^ (4 * rest.length) - 1) ↔
        ((((lo + 256 * hi) >>> 4) % 256 = 255) ∧
          leVal (neon.vshrn_n_u16_4_hide rest) = 2 ^ (4 * rest.length) - 1) := by
      have hp : 0 < (2 : Nat) ^ (4 * rest.length) := Nat.two_pow_pos _
      constructor
      · intro h
        constructor <;> omega
      · rintro ⟨h1, h2⟩
        omega
    rw [hsplit, narrow_eq_255_iff lo hi (hm lo (List.mem_cons_self _ _))
      (hm hi (List.mem_cons_of_mem lo (List.mem_cons_self _ _))), ih]
    constructor
    · rintro ⟨⟨hl, hh⟩, hr⟩
      intro z hz
      rcases List.mem_cons.mp hz with rfl | hz
      · exact hl
      · rcases List.mem_cons.mp hz with rfl | hz
        · exact hh
        · exact hr z hz
    · intro h
      refine ⟨⟨h lo (List.mem_cons_self _ _),
        h hi (List.mem_cons_of_mem lo (List.mem_cons_self _ _))⟩, ?_⟩
      intro z hz
      exact h z (List.mem_cons_of_mem lo (List.mem_cons_of_mem hi hz))

theorem vceqq_eq_cmpeq : neon.vceqq_u8_hide = sse2.cmpeq_epi8 := rfl

theorem vandq_eq_and : neon.vandq_u8_hide = sse2.and_si128 := rfl

theorem neon_loopAux_eq : ∀ fuel m0 m1 a b,
    neon.loopAux fuel m0 m1 a b = sse2.loopAux fuel m0 m1 a b
  | 0, _, _, _, _ => rfl
  | fuel + 1, m0, m1, a, b => by
    simp only [neon.loopAux, sse2.loopAux]
    by_cases h : 32 ≤ a.length
    · simp only [if_pos h]
      rw [neon_loopAux_eq fuel]
      rfl
    · simp only [if_neg h]

theorem vld1q_short_length (p : List Nat) (n : Nat) (hn : n ≤ 16) (hp : n ≤ p.length) :
    (neon.vld1q_u8_short p n).length = 16 := by
  unfold neon.vld1q_u8_short
  split_ifs <;>
    simp [neon.load_unaligned, neon.load_unaligned_pair, neon.vcreate_u8,
      leBytes_length, List.length_take, List.length_drop] <;> omega

/-- The NEON final check on a 0x00/0xFF lane mask succeeds exactly when all
lanes are 0xFF. -/
theorem neon_final_eq_iff (m : List Nat) (hm : MaskBytes m) (hl : m.length = 16) :
    ((leVal (neon.vshrn_n_u16_4_hide m) == 2 ^ 64 - 1) = true) ↔ allFF m := by
  rw [beq_iff_eq]
  have h := vshrn4_allones m hm (by rw [hl])
  rw [hl, show (4 * 16 : Nat) = 64 from rfl] at h
  exact h

/-- Full functional correctness of the NEON vector engine: with the length
of `a` used as the byte count (as the callers do), it returns `true` exactly
when the two equal-length byte inputs are byte-wise equal. -/
theorem neon_correct (a b : List Nat) (hlen : a.length = b.length)
    (hba : Bytes a) (hbb : Bytes b) :
    (neon.constant_time_eq_neon a b = true) ↔ a = b := by
  unfold neon.constant_time_eq_neon
  by_cases h32 : 32 ≤ a.length
  · rw [if_pos h32]
    dsimp only
    simp only [vceqq_eq_cmpeq, vandq_eq_and, neon_loopAux_eq]
    obtain ⟨s1, s2, s3, s4, s5, s6, s7⟩ := sse2_loopAux_spec (a.drop 32).length
      (sse2.cmpeq_epi8 (a.take 16) (b.take 16))
      (sse2.cmpeq_epi8 ((a.drop 16).take 16) ((b.drop 16).take 16))
      (a.drop 32) (b.drop 32)
      (Nat.le_refl _)
      (by simp only [List.length_drop]; omega)
      (maskBytes_cmpeq _ _) (maskBytes_cmpeq _ _)
      (by rw [length_cmpeq]; simp [List.length_take]; omega)
      (by rw [length_cmpeq]; simp [List.length_take, List.length_drop]; omega)
    rcases hr : sse2.loopAux (a.drop 32).length
        (sse2.cmpeq_epi8 (a.take 16) (b.take 16))
        (sse2.cmpeq_epi8 ((a.drop 16).take 16) ((b.drop 16).take 16))
        (a.drop 32) (b.drop 32) with ⟨q0, q1, ra, rb⟩
    rw [hr] at s1 s2 s3 s4 s5 s6 s7
    dsimp only at s1 s2 s3 s4 s5 s6 s7 ⊢
    have hraln : ra.length = (a.drop 32).length - 32 * ((a.drop 32).length / 32) := by
      rw [s1]
      simp only [List.length_drop]
    have hrbln : rb.length = ra.length := by
      rw [s1, s2]
      simp only [List.length_drop]
      omega
    have hralt : ra.length < 32 := by
      rw [hraln]
      simp only [List.length_drop]
      omega
    have hbra : Bytes ra := s1 ▸ bytes_drop _ (bytes_drop a hba 32) _
    have hbrb : Bytes rb := s2 ▸ bytes_drop _ (bytes_drop b hbb 32) _
    rw [allFF_cmpeq_iff _ _ (by simp [List.length_take]; omega)] at s7
    rw [allFF_cmpeq_iff _ _ (by simp [List.length_take, List.length_drop]; omega)] at s7
    have hsplitA := eq_iff_split 16 a b
    have hsplitB := eq_iff_split 16 (a.drop 16) (b.drop 16)
    simp only [List.drop_drop] at hsplitB
    norm_num at hsplitB
    have hsplit3 := eq_iff_split (32 * ((a.drop 32).length / 32)) (a.drop 32) (b.drop 32)
    rw [← s1, ← s2] at hsplit3
    have hsplit4 := eq_iff_split 16 ra rb
    by_cases h16r : 16 ≤ ra.length
    · simp only [if_pos h16r]
      by_cases hremr : 0 < (ra.drop 16).length
      · rw [if_pos hremr]
        have hds : (ra.drop 16).length ≤ (rb.drop 16).length := by
          simp only [List.length_drop]
          omega
        have hc4l : (sse2.cmpeq_epi8 (ra.take 16) (rb.take 16)).length = 16 := by
          rw [length_cmpeq]
          simp [List.length_take]
          omega
        have hc5l : (sse2.cmpeq_epi8 (neon.vld1q_u8_short (ra.drop 16) (ra.drop 16).length)
            (neon.vld1q_u8_short (rb.drop 16) (ra.drop 16).length)).length = 16 := by
          rw [length_cmpeq,
            vld1q_short_length _ _ (by simp only [List.length_drop]; omega) (Nat.le_refl _),
            vld1q_short_length _ _ (by simp only [List.length_drop]; omega) hds]
          simp
        have hm0'b : MaskBytes (sse2.and_si128 q0 (sse2.cmpeq_epi8 (ra.take 16) (rb.take 16))) :=
          maskBytes_and _ _ s3 (maskBytes_cmpeq _ _)
        have hm1'b : MaskBytes (sse2.and_si128 q1
            (sse2.cmpeq_epi8 (neon.vld1q_u8_short (ra.drop 16) (ra.drop 16).length)
              (neon.vld1q_u8_short (rb.drop 16) (ra.drop 16).length))) :=
          maskBytes_and _ _ s4 (maskBytes_cmpeq _ _)
        have hm0'l : (sse2.and_si128 q0
            (sse2.cmpeq_epi8 (ra.take 16) (rb.take 16))).length = 16 := by
          rw [length_and, s5, hc4l]
          simp
        have hm1'l : (sse2.and_si128 q1
            (sse2.cmpeq_epi8 (neon.vld1q_u8_short (ra.drop 16) (ra.drop 16).length)
              (neon.vld1q_u8_short (rb.drop 16) (ra.drop 16).length))).length = 16 := by
          rw [length_and, s6, hc5l]
          simp
        rw [neon_final_eq_iff _ (maskBytes_and _ _ hm0'b hm1'b)
          (by rw [length_and, hm0'l, hm1'l, Nat.min_self])]
        rw [allFF_and_iff _ _ (by rw [hm0'l, hm1'l]) hm0'b hm1'b]
        rw [allFF_and_iff _ _ (by rw [s5, hc4l]) s3 (maskBytes_cmpeq _ _)]
        rw [allFF_and_iff _ _ (by rw [s6, hc5l]) s4 (maskBytes_cmpeq _ _)]
        rw [allFF_cmpeq_iff _ _ (by simp [List.length_take]; omega)]
        rw [allFF_cmpeq_iff _ _ (by
          rw [vld1q_short_length _ _ (by simp only [List.length_drop]; omega) (Nat.le_refl _),
            vld1q_short_length _ _ (by simp only [List.length_drop]; omega) hds])]
        rw [vld1q_short_iff _ _ _ (by simp only [List.length_drop]; omega) (Nat.le_refl _) hds
          (bytes_drop _ hbra 16) (bytes_drop _ hbrb 16)]
        rw [List.take_length]
        rw [show (ra.drop 16).length = (rb.drop 16).length by
          simp only [List.length_drop]; omega, List.take_length]
        rw [hsplitA, hsplitB, hsplit3, hsplit4]
        constructor
        · rintro ⟨⟨hq0, hT4⟩, hq1, hT5⟩
          obtain ⟨p1, p2, p3⟩ := s7.mp ⟨hq0, hq1⟩
          exact ⟨p1, p2, p3, hT4, hT5⟩
        · rintro ⟨p1, p2, p3, hT4, hT5⟩
          obtain ⟨hq0, hq1⟩ := s7.mpr ⟨p1, p2, p3⟩
          exact ⟨⟨hq0, hT4⟩, hq1, hT5⟩
      · rw [if_neg hremr]
        simp only [List.length_drop] at hremr
        have hc4l : (sse2.cmpeq_epi8 (ra.take 16) (rb.take 16)).length = 16 := by
          rw [length_cmpeq]
          simp [List.length_take]
          omega
        have hm0'b : MaskBytes (sse2.and_si128 q0 (sse2.cmpeq_epi8 (ra.take 16) (rb.take 16))) :=
          maskBytes_and _ _ s3 (maskBytes_cmpeq _ _)
        have hm0'l : (sse2.and_si128 q0
            (sse2.cmpeq_epi8 (ra.take 16) (rb.take 16))).length = 16 := by
          rw [length_and, s5, hc4l]
          simp
        rw [neon_final_eq_iff _ (maskBytes_and _ _ hm0'b s4)
          (by rw [length_and, hm0'l, s6, Nat.min_self])]
        rw [allFF_and_iff _ _ (by rw [hm0'l, s6]) hm0'b s4]
        rw [allFF_and_iff _ _ (by rw [s5, hc4l]) s3 (maskBytes_cmpeq _ _)]
        rw [allFF_cmpeq_iff _ _ (by simp [List.length_take]; omega)]
        have hta : ra.take 16 = ra := List.take_of_length_le (by omega)
        have htb : rb.take 16 = rb := List.take_of_length_le (by omega)
        rw [hsplitA, hsplitB, hsplit3, hta, htb]
        constructor
        · rintro ⟨⟨hq0, hT⟩, hq1⟩
          obtain ⟨p1, p2, p3⟩ := s7.mp ⟨hq0, hq1⟩
          exact ⟨p1, p2, p3, hT⟩
        · rintro ⟨p1, p2, p3, hT⟩
          obtain ⟨hq0, hq1⟩ := s7.mpr ⟨p1, p2, p3⟩
          exact ⟨⟨hq0, hT⟩, hq1⟩
    · simp only [if_neg h16r]
      by_cases hremr : 0 < ra.length
      · rw [if_pos hremr]
        have hds : ra.length ≤ rb.length := by omega
        have hc5l : (sse2.cmpeq_epi8 (neon.vld1q_u8_short ra ra.length)
            (neon.vld1q_u8_short rb ra.length)).length = 16 := by
          rw [length_cmpeq,
            vld1q_short_length _ _ (by omega) (Nat.le_refl _),
            vld1q_short_length _ _ (by omega) hds]
          simp
        have hm1'b : MaskBytes (sse2.and_si128 q1
            (sse2.cmpeq_epi8 (neon.vld1q_u8_short ra ra.length)
              (neon.vld1q_u8_short rb ra.length))) :=
          maskBytes_and _ _ s4 (maskBytes_cmpeq _ _)
        have hm1'l : (sse2.and_si128 q1
            (sse2.cmpeq_epi8 (neon.vld1q_u8_short ra ra.length)
              (neon.vld1q_u8_short rb ra.length))).length = 16 := by
          rw [length_and, s6, hc5l]
          simp
        rw [neon_final_eq_iff _ (maskBytes_and _ _ s3 hm1'b)
          (by rw [length_and, s5, hm1'l, Nat.min_self])]
        rw [allFF_and_iff _ _ (by rw [s5, hm1'l]) s3 hm1'b]
        rw [allFF_and_iff _ _ (by rw [s6, hc5l]) s4 (maskBytes_cmpeq _ _)]
        rw [allFF_cmpeq_iff _ _ (by
          rw [vld1q_short_length _ _ (by omega) (Nat.le_refl _),
            vld1q_short_length _ _ (by omega) hds])]
        rw [vld1q_short_iff _ _ _ (by omega) (Nat.le_refl _) hds hbra hbrb]
        have hrbt : rb.take ra.length = rb := by
          rw [← hrbln]
          exact List.take_length rb
        rw [List.take_length, hrbt]
        rw [hsplitA, hsplitB, hsplit3]
        constructor
        · rintro ⟨hq0, hq1, hT⟩
          obtain ⟨p1, p2, p3⟩ := s7.mp ⟨hq0, hq1⟩
          exact ⟨p1, p2, p3, hT⟩
        · rintro ⟨p1, p2, p3, hT⟩
          obtain ⟨hq0, hq1⟩ := s7.mpr ⟨p1, p2, p3⟩
          exact ⟨hq0, hq1, hT⟩
      · rw [if_neg hremr]
        rw [neon_final_eq_iff _ (maskBytes_and _ _ s3 s4)
          (by rw [length_and, s5, s6, Nat.min_self])]
        rw [allFF_and_iff _ _ (by rw [s5, s6]) s3 s4]
        have hnil : ra = rb := list_eq_of_length_zero (by omega) (by omega)
        rw [hsplitA, hsplitB, hsplit3]
        constructor
        · rintro ⟨hq0, hq1⟩
          obtain ⟨p1, p2, p3⟩ := s7.mp ⟨hq0, hq1⟩
          exact ⟨p1, p2, p3, hnil⟩
        · rintro ⟨p1, p2, p3, _⟩
          exact s7.mpr ⟨p1, p2, p3⟩
  · rw [if_neg h32]
    by_cases h16 : 16 ≤ a.length
    · rw [if_pos h16]
      dsimp only
      simp only [vceqq_eq_cmpeq, vandq_eq_and]
      by_cases hrem : 0 < (a.drop 16).length
      · rw [if_pos hrem]
        have hc0l : (sse2.cmpeq_epi8 (a.take 16) (b.take 16)).length = 16 := by
          rw [length_cmpeq]
          simp [List.length_take]
          omega
        have hdl : (a.drop 16).length ≤ (b.drop 16).length := by
          simp only [List.length_drop]
          omega
        have hc1l : (sse2.cmpeq_epi8 (neon.vld1q_u8_short (a.drop 16) (a.drop 16).length)
            (neon.vld1q_u8_short (b.drop 16) (a.drop 16).length)).length = 16 := by
          rw [length_cmpeq,
            vld1q_short_length _ _ (by simp only [List.length_drop]; omega) (Nat.le_refl _),
            vld1q_short_length _ _ (by simp only [List.length_drop]; omega) hdl]
          simp
        rw [neon_final_eq_iff _
          (maskBytes_and _ _ (maskBytes_cmpeq _ _) (maskBytes_cmpeq _ _))
          (by rw [length_and, hc0l, hc1l, Nat.min_self])]
        rw [allFF_and_iff _ _ (by rw [hc0l, hc1l]) (maskBytes_cmpeq _ _) (maskBytes_cmpeq _ _)]
        rw [allFF_cmpeq_iff _ _ (by simp [List.length_take]; omega)]
        rw [allFF_cmpeq_iff _ _ (by
          rw [vld1q_short_length _ _ (by simp only [List.length_drop]; omega) (Nat.le_refl _),
            vld1q_short_length _ _ (by simp only [List.length_drop]; omega) hdl])]
        rw [vld1q_short_iff _ _ _ (by simp only [List.length_drop]; omega) (Nat.le_refl _) hdl
          (bytes_drop a hba 16) (bytes_drop b hbb 16)]
        rw [List.take_length]
        rw [show (a.drop 16).length = (b.drop 16).length by simp only [List.length_drop]; omega,
          List.take_length]
        rw [eq_iff_split 16 a b]
      · rw [if_neg hrem]
        have hc0l : (sse2.cmpeq_epi8 (a.take 16) (b.take 16)).length = 16 := by
          rw [length_cmpeq]
          simp [List.length_take]
          omega
        rw [neon_final_eq_iff _ (maskBytes_cmpeq _ _) hc0l]
        rw [allFF_cmpeq_iff _ _ (by simp [List.length_take]; omega)]
        have ha16 : a.take 16 = a :=
          List.take_of_length_le (by simp only [List.length_drop] at hrem; omega)
        have hb16 : b.take 16 = b :=
          List.take_of_length_le (by simp only [List.length_drop] at hrem; omega)
        rw [ha16, hb16]
    · rw [if_neg h16]
      by_cases h0 : 0 < a.length
      · rw [if_pos h0]
        simp only [vceqq_eq_cmpeq]
        have hbl : a.length ≤ b.length := by omega
        have hml : (sse2.cmpeq_epi8 (neon.vld1q_u8_short a a.length)
            (neon.vld1q_u8_short b a.length)).length = 16 := by
          rw [length_cmpeq, vld1q_short_length _ _ (by omega) (Nat.le_refl _),
            vld1q_short_length _ _ (by omega) hbl]
          simp
        rw [neon_final_eq_iff _ (maskBytes_cmpeq _ _) hml]
        rw [allFF_cmpeq_iff _ _ (by
          rw [vld1q_short_length _ _ (by omega) (Nat.le_refl _),
            vld1q_short_length _ _ (by omega) hbl])]
        rw [vld1q_short_iff _ _ _ (by omega) (Nat.le_refl _) hbl hba hbb]
        rw [List.take_length, hlen, List.take_length]
      · rw [if_neg h0]
        have ha0 : a = [] := List.eq_nil_of_length_eq_zero (by omega)
        have hb0 : b = [] := List.eq_nil_of_length_eq_zero (by omega)
        subst ha0
        subst hb0
        simp

/-! ## Crate-level wrappers (`lib.rs`) -/

namespace lib

/-- Models `lib.rs`'s `constant_time_eq` with the generic back end selected
(`use generic as simd` when no vector extension is available); the SSE2 and
NEON back ends are modelled by `sse2.constant_time_eq` and
`neon.constant_time_eq` and proven equivalent. -/
def constant_time_eq (a b : List Nat) : Bool := generic.constant_time_eq a b

/-- Models `lib.rs`'s `constant_time_eq_n` (same back-end selection). -/
def constant_time_eq_n (a b : List Nat) : Bool := generic.constant_time_eq_n a b

/-- Models `lib.rs`'s `constant_time_eq_16`. -/
def constant_time_eq_16 (a b : List Nat) : Bool := constant_time_eq_n a b

/-- Models `lib.rs`'s `constant_time_eq_32`. -/
def constant_time_eq_32 (a b : List Nat) : Bool := constant_time_eq_n a b

/-- Models `lib.rs`'s `constant_time_eq_64`. -/
def constant_time_eq_64 (a b : List Nat) : Bool := constant_time_eq_n a b

end lib

/-! ## The DIT wrapper and the capability flag cache (`dit.rs`)

The `dit` system register is modelled as an explicit `Nat` state; the
`FEATURES` `AtomicU8` as an explicit `Nat` state (`0` = unknown).  The
compile-time `cfg!(target_feature = "...")` flags and the values returned by
runtime feature detection are parameters. -/

namespace dit

/-- Models the `Features` enum of `dit.rs` (`Neither = 1`, `DitOnly = 2`,
`DitSb = 3`; the discriminant `0` is reserved for "unknown"). -/
inductive Features where
  | Neither
  | DitOnly
  | DitSb
deriving DecidableEq

/-- The `repr(u8)` discriminant of a `Features` value. -/
def Features.toU8 : Features → Nat
  | .Neither => 1
  | .DitOnly => 2
  | .DitSb => 3

/-- Models the `transmute::<u8, Features>` used by the getter on a non-zero
cached value (only discriminants 1..3 are ever stored). -/
def Features.ofU8 (n : Nat) : Features :=
  if n = 2 then .DitOnly else if n = 3 then .DitSb else .Neither

/-- The features value computed by `detect::set_aarch64_dit_sb_features` from
its parameters OR-ed with the compile-time flags. -/
def computeFeatures (ctDit ctSb ditArg sbArg : Bool) : Features :=
  match ditArg || ctDit, sbArg || ctSb with
  | true, true => .DitSb
  | true, false => .DitOnly
  | _, _ => .Neither

/-- Models `detect::set_aarch64_dit_sb_features`: computes the features value
and publishes it with `FEATURES.compare_exchange(0, v)` — the write happens
only when the cache still holds zero (first writer wins).  Returns the new
cache state and the locally computed features. -/
def set_aarch64_dit_sb_features (ctDit ctSb ditArg sbArg : Bool) (st : Nat) : Nat × Features :=
  let features := computeFeatures ctDit ctSb ditArg sbArg
  (if st = 0 then features.toU8 else st, features)

/-- Models `detect::detect_aarch64_dit_sb_features`: one-time detection
(runtime-detected values with `std`, the compile-time flags without), then
recording via the compare-exchange setter. -/
def detect_aarch64_dit_sb_features (ctDit ctSb detDit detSb : Bool) (st : Nat) : Nat × Features :=
  set_aarch64_dit_sb_features ctDit ctSb detDit detSb st

/-- Models `detect::get_aarch64_dit_sb_features`: a non-zero cached value is
returned as-is (no write); otherwise detection runs. -/
def get_aarch64_dit_sb_features (ctDit ctSb detDit detSb : Bool) (st : Nat) : Nat × Features :=
  if 0 < st then (st, Features.ofU8 st)
  else detect_aarch64_dit_sb_features ctDit ctSb detDit detSb st

/-- Models `rsr64_dit` (`mrs {}, dit`): reads the register. -/
def rsr64_dit (s : Nat) : Nat := s

/-- Models `wsr64_dit` (`msr dit, {}`): writes the register. -/
def wsr64_dit (value : Nat) (_s : Nat) : Nat := value

/-- Models `enable_dit` (`msr dit, #1`, i.e. writing `1 << 24`). -/
def enable_dit (_s : Nat) : Nat := 2 ^ 24

/-- Models `speculation_barrier` (`sb`): no effect on the register. -/
def speculation_barrier (s : Nat) : Nat := s

/-- Models `synchronization_barrier` (`dsb nsh; isb sy`): no effect on the
register. -/
def synchronization_barrier (s : Nat) : Nat := s

/-- Models `dit::with_feat_dit_sb`: the guard captures the register at entry
(before `enable_dit`); the wrapped computation `f` maps the register state to
a new state and an outcome (`Except.error` models unwinding); the guard's
`Drop` restores the saved value on every exit path. -/
def with_feat_dit_sb {ε T : Type} (f : Nat → Nat × Except ε T) (s : Nat) : Nat × Except ε T :=
  let saved := rsr64_dit s
  let s1 := enable_dit s
  let s2 := speculation_barrier s1
  let r := f s2
  (wsr64_dit saved r.1, r.2)

/-- Models `dit::with_feat_dit`: as `with_feat_dit_sb`, with the heavier
synchronization barrier instead of `sb`. -/
def with_feat_dit {ε T : Type} (f : Nat → Nat × Except ε T) (s : Nat) : Nat × Except ε T :=
  let saved := rsr64_dit s
  let s1 := enable_dit s
  let s2 := synchronization_barrier s1
  let r := f s2
  (wsr64_dit saved r.1, r.2)

/-- Models `dit::with_dit`: dispatch on the detected features; with neither
feature the computation runs unwrapped. -/
def with_dit {ε T : Type} (features : Features) (f : Nat → Nat × Except ε T) (s : Nat) :
    Nat × Except ε T :=
  match features with
  | .DitSb => with_feat_dit_sb f s
  | .DitOnly => with_feat_dit f s
  | .Neither => f s

end dit

/-! ## The spec's delegated tail composition for the vector engines

`spec.md` §4.3 describes the vector engines as delegating any remainder
shorter than one register to the generic scalar engine, "seeded with the
bitwise complement of the extracted mask".  The definitions below are
modelled from those spec words (the code in `sse2.rs`/`neon.rs` instead
handles remainders with partial-register loads); they are used to settle the
corresponding claim. -/

/-- Modelled from the spec: AND-accumulation of the lane-wise equality masks
of all full 16-byte chunks (one chunk per iteration), starting from the
all-ones mask. -/
def chunkMaskAux : Nat → List Nat → List Nat → List Nat → List Nat
  | 0, m, _, _ => m
  | fuel + 1, m, a, b =>
    if 16 ≤ a.length then
      chunkMaskAux fuel (sse2.and_si128 m (sse2.cmpeq_epi8 (a.take 16) (b.take 16)))
        (a.drop 16) (b.drop 16)
    else m

/-- Modelled from the spec: the accumulated full-chunk mask. -/
def chunkMask (a b : List Nat) : List Nat :=
  chunkMaskAux a.length (List.replicate 16 255) a b

/-- Modelled from the spec, for the x86 engine: process the full 16-byte
chunks, extract the per-byte bitmask (`movemask`), and delegate a non-empty
remainder to the generic scalar engine seeded with the bitwise complement of
the extracted mask — read literally, the complement within a 64-bit machine
word), otherwise test the mask against all-ones. -/
def sse2_delegated (a b : List Nat) : Bool :=
  let k := 16 * (a.length / 16)
  let mask := sse2.movemask_epi8 (chunkMask (a.take k) (b.take k))
  if k < a.length then
    generic.constant_time_eq_impl (a.drop k) (b.drop k) ((2 ^ 64 - 1) ^^^ mask)
  else mask == 0xFFFF

/-- Modelled from the spec: (amended) the seed is the complement of the
extracted mask within its own 16 mask bits (`mask ^ 0xFFFF`), which is what
makes the composition agree with the engine. -/
def sse2_delegated16 (a b : List Nat) : Bool :=
  let k := 16 * (a.length / 16)
  let mask := sse2.movemask_epi8 (chunkMask (a.take k) (b.take k))
  if k < a.length then
    generic.constant_time_eq_impl (a.drop k) (b.drop k) (0xFFFF ^^^ mask)
  else mask == 0xFFFF

/-- Modelled from the spec, for the NEON engine: the extracted mask is the
64-bit `shrn #4` narrowing of the accumulated lane mask, and the seed is its
bitwise complement as a 64-bit word. -/
def neon_delegated (a b : List Nat) : Bool :=
  let k := 16 * (a.length / 16)
  let mask := leVal (neon.vshrn_n_u16_4_hide (chunkMask (a.take k) (b.take k)))
  if k < a.length then
    generic.constant_time_eq_impl (a.drop k) (b.drop k) ((2 ^ 64 - 1) ^^^ mask)
  else mask == 2 ^ 64 - 1

theorem allFF_replicate : allFF (List.replicate 16 255) := by
  intro x hx
  exact List.eq_of_mem_replicate hx

theorem maskBytes_replicate : MaskBytes (List.replicate 16 255) := by
  intro x hx
  exact Or.inr (List.eq_of_mem_replicate hx)

theorem chunkMaskAux_spec : ∀ fuel : Nat, ∀ m a b : List Nat,
    a.length ≤ fuel → a.length = b.length → MaskBytes m → m.length = 16 →
    MaskBytes (chunkMaskAux fuel m a b) ∧
    (chunkMaskAux fuel m a b).length = 16 ∧
    (allFF (chunkMaskAux fuel m a b) ↔
      (allFF m ∧ a.take (16 * (a.length / 16)) = b.take (16 * (a.length / 16))))
  | 0, m, a, b, hfuel, hlen, hm, hl => by
    have ha0 : a = [] := List.eq_nil_of_length_eq_zero (Nat.le_zero.mp hfuel)
    subst ha0
    simp [chunkMaskAux, hm, hl]
  | fuel + 1, m, a, b, hfuel, hlen, hm, hl => by
    by_cases h16 : 16 ≤ a.length
    · have hstep : chunkMaskAux (fuel + 1) m a b =
          chunkMaskAux fuel (sse2.and_si128 m (sse2.cmpeq_epi8 (a.take 16) (b.take 16)))
            (a.drop 16) (b.drop 16) := by
        simp [chunkMaskAux, h16]
      have hclen : (sse2.cmpeq_epi8 (a.take 16) (b.take 16)).length = 16 := by
        rw [length_cmpeq]
        simp [List.length_take]
        omega
      have hm' : MaskBytes (sse2.and_si128 m (sse2.cmpeq_epi8 (a.take 16) (b.take 16))) :=
        maskBytes_and _ _ hm (maskBytes_cmpeq _ _)
      have hl' : (sse2.and_si128 m (sse2.cmpeq_epi8 (a.take 16) (b.take 16))).length = 16 := by
        rw [length_and, hl, hclen]
        simp
      obtain ⟨ih1, ih2, ih3⟩ := chunkMaskAux_spec fuel _ (a.drop 16) (b.drop 16)
        (by simp only [List.length_drop]; omega)
        (by simp only [List.length_drop]; omega) hm' hl'
      refine ⟨hstep ▸ ih1, hstep ▸ ih2, ?_⟩
      rw [hstep, ih3]
      rw [allFF_and_iff _ _ (by rw [hl, hclen]) hm (maskBytes_cmpeq _ _)]
      rw [allFF_cmpeq_iff _ _ (by simp [List.length_take]; omega)]
      have hdiv : 16 * ((a.drop 16).length / 16) = 16 * (a.length / 16) - 16 := by
        simp only [List.length_drop]
        omega
      have hsplit : (a.take (16 * (a.length / 16)) = b.take (16 * (a.length / 16))) ↔
          (a.take 16 = b.take 16 ∧
            (a.drop 16).take (16 * ((a.drop 16).length / 16)) =
              (b.drop 16).take (16 * ((a.drop 16).length / 16))) := by
        rw [show 16 * (a.length / 16) = 16 + 16 * ((a.drop 16).length / 16) by
          simp only [List.length_drop]; omega]
        exact take_split_iff 16 _ a b (by omega) (by omega)
      rw [hsplit]
      constructor
      · rintro ⟨⟨h1, h2⟩, h3⟩
        exact ⟨h1, h2, h3⟩
      · rintro ⟨h1, h2, h3⟩
        exact ⟨⟨h1, h2⟩, h3⟩
    · have hK0 : a.length / 16 = 0 := Nat.div_eq_of_lt (by omega)
      simp [chunkMaskAux, h16, hK0, hm, hl]

theorem chunkMask_spec (a b : List Nat) (hlen : a.length = b.length) :
    MaskBytes (chunkMask a b) ∧ (chunkMask a b).length = 16 ∧
    (allFF (chunkMask a b) ↔
      a.take (16 * (a.length / 16)) = b.take (16 * (a.length / 16))) := by
  obtain ⟨h1, h2, h3⟩ := chunkMaskAux_spec a.length (List.replicate 16 255) a b
    (Nat.le_refl _) hlen maskBytes_replicate (by simp)
  refine ⟨h1, h2, ?_⟩
  rw [chunkMask, h3]
  exact ⟨fun h => h.2, fun h => ⟨allFF_replicate, h⟩⟩

theorem bool_eq_of_iff {x y : Bool} (h : x = true ↔ y = true) : x = y := by
  cases x <;> cases y <;> simp_all

theorem sse2_delegated16_correct (a b : List Nat) (hlen : a.length = b.length)
    (hba : Bytes a) (hbb : Bytes b) :
    (sse2_delegated16 a b = true) ↔ a = b := by
  unfold sse2_delegated16
  obtain ⟨hm, hl, hFF⟩ := chunkMask_spec (a.take (16 * (a.length / 16)))
    (b.take (16 * (a.length / 16)))
    (by simp [List.length_take]; omega)
  have hkle : 16 * (a.length / 16) ≤ a.length := by omega
  have htk : (a.take (16 * (a.length / 16))).length = 16 * (a.length / 16) := by
    rw [List.length_take]
    omega
  have htt : (a.take (16 * (a.length / 16))).take
      (16 * ((a.take (16 * (a.length / 16))).length / 16)) = a.take (16 * (a.length / 16)) := by
    rw [htk, Nat.mul_div_cancel_left _ (by omega : (0:Nat) < 16)]
    rw [List.take_take]
    simp
  have htt' : (b.take (16 * (a.length / 16))).take
      (16 * ((a.take (16 * (a.length / 16))).length / 16)) = b.take (16 * (a.length / 16)) := by
    rw [htk, Nat.mul_div_cancel_left _ (by omega : (0:Nat) < 16)]
    rw [List.take_take]
    simp
  rw [htt, htt'] at hFF
  have hmov := movemask_eq_iff _ hm
  rw [hl] at hmov
  dsimp only
  by_cases hrem : 16 * (a.length / 16) < a.length
  · rw [if_pos hrem]
    rw [impl_eq_true_iff _ _ _ (by simp only [List.length_drop]; omega)
      (bytes_drop a hba _) (bytes_drop b hbb _)]
    rw [Nat.xor_eq_zero]
    constructor
    · rintro ⟨hseed, hdrop⟩
      have hmask : sse2.movemask_epi8 (chunkMask (a.take (16 * (a.length / 16)))
          (b.take (16 * (a.length / 16)))) = 2 ^ 16 - 1 := by
        rw [← hseed]
        norm_num
      have htake := hFF.mp (hmov.mp hmask)
      rw [eq_iff_split (16 * (a.length / 16)) a b]
      exact ⟨htake, hdrop⟩
    · intro hab
      obtain ⟨htake, hdrop⟩ := (eq_iff_split (16 * (a.length / 16)) a b).mp hab
      have hmask := hmov.mpr (hFF.mpr htake)
      refine ⟨?_, hdrop⟩
      rw [hmask]
      norm_num
  · rw [if_neg hrem]
    have hk : 16 * (a.length / 16) = a.length := by omega
    rw [beq_iff_eq, show (65535 : Nat) = 2 ^ 16 - 1 from by norm_num, hmov, hFF]
    rw [hk, List.take_length, hlen, List.take_length]

theorem neon_delegated_correct (a b : List Nat) (hlen : a.length = b.length)
    (hba : Bytes a) (hbb : Bytes b) :
    (neon_delegated a b = true) ↔ a = b := by
  unfold neon_delegated
  obtain ⟨hm, hl, hFF⟩ := chunkMask_spec (a.take (16 * (a.length / 16)))
    (b.take (16 * (a.length / 16)))
    (by simp [List.length_take]; omega)
  have hkle : 16 * (a.length / 16) ≤ a.length := by omega
  have htk : (a.take (16 * (a.length / 16))).length = 16 * (a.length / 16) := by
    rw [List.length_take]
    omega
  have htt : (a.take (16 * (a.length / 16))).take
      (16 * ((a.take (16 * (a.length / 16))).length / 16)) = a.take (16 * (a.length / 16)) := by
    rw [htk, Nat.mul_div_cancel_left _ (by omega : (0:Nat) < 16)]
    rw [List.take_take]
    simp
  have htt' : (b.take (16 * (a.length / 16))).take
      (16 * ((a.take (16 * (a.length / 16))).length / 16)) = b.take (16 * (a.length / 16)) := by
    rw [htk, Nat.mul_div_cancel_left _ (by omega : (0:Nat) < 16)]
    rw [List.take_take]
    simp
  rw [htt, htt'] at hFF
  have hshrn := vshrn4_allones _ hm (by rw [hl])
  rw [hl, show (4 * 16 : Nat) = 64 from rfl] at hshrn
  dsimp only
  by_cases hrem : 16 * (a.length / 16) < a.length
  · rw [if_pos hrem]
    rw [impl_eq_true_iff _ _ _ (by simp only [List.length_drop]; omega)
      (bytes_drop a hba _) (bytes_drop b hbb _)]
    rw [Nat.xor_eq_zero]
    constructor
    · rintro ⟨hseed, hdrop⟩
      have hmask : leVal (neon.vshrn_n_u16_4_hide (chunkMask (a.take (16 * (a.length / 16)))
          (b.take (16 * (a.length / 16))))) = 2 ^ 64 - 1 := by
        rw [← hseed]
      have htake := hFF.mp (hshrn.mp hmask)
      rw [eq_iff_split (16 * (a.length / 16)) a b]
      exact ⟨htake, hdrop⟩
    · intro hab
      obtain ⟨htake, hdrop⟩ := (eq_iff_split (16 * (a.length / 16)) a b).mp hab
      have hmask := hshrn.mpr (hFF.mpr htake)
      exact ⟨by rw [hmask], hdrop⟩
  · rw [if_neg hrem]
    have hk : 16 * (a.length / 16) = a.length := by omega
    rw [beq_iff_eq, hshrn, hFF]
    rw [hk, List.take_length, hlen, List.take_length]

/-! ## Fuel irrelevance and the word-loop step equation -/

theorem wordLoopAux_fuel : ∀ f1 f2 tmp : Nat, ∀ a b : List Nat,
    a.length ≤ f1 → a.length ≤ f2 →
    generic.wordLoopAux f1 tmp a b = generic.wordLoopAux f2 tmp a b
  | 0, f2, tmp, a, b, h1, _ => by
    have ha0 : a = [] := List.eq_nil_of_length_eq_zero (Nat.le_zero.mp h1)
    subst ha0
    cases f2 <;> simp [generic.wordLoopAux]
  | f1 + 1, 0, tmp, a, b, _, h2 => by
    have ha0 : a = [] := List.eq_nil_of_length_eq_zero (Nat.le_zero.mp h2)
    subst ha0
    simp [generic.wordLoopAux]
  | f1 + 1, f2 + 1, tmp, a, b, h1, h2 => by
    simp only [generic.wordLoopAux]
    by_cases h : 8 ≤ a.length
    · simp only [if_pos h]
      exact wordLoopAux_fuel f1 f2 _ _ _
        (by simp only [generic.cmp_step, List.length_drop]; omega)
        (by simp only [generic.cmp_step, List.length_drop]; omega)
    · simp only [if_neg h]

/-- One iteration of the word loop: the accumulator is only ever OR-combined
with the per-chunk XOR difference, never reset. -/
theorem wordLoop_step (tmp : Nat) (a b : List Nat) (h : 8 ≤ a.length) :
    generic.wordLoop tmp a b =
      generic.wordLoop (tmp ||| (leVal (a.take 8) ^^^ leVal (b.take 8))) (a.drop 8) (b.drop 8) := by
  rw [generic.wordLoop, generic.wordLoop]
  rw [show a.length = (a.length - 1) + 1 by omega]
  simp only [generic.wordLoopAux, if_pos h, generic.cmp_step, generic.optimizer_hide]
  exact wordLoopAux_fuel _ _ _ _ _
    (by simp only [List.length_drop]; omega)
    (by simp only [List.length_drop]; omega)

/-! ## Top-level equalities for the three back ends -/

theorem generic_eq (a b : List Nat) (ha : Bytes a) (hb : Bytes b) :
    (generic.constant_time_eq a b = true) ↔ a = b := by
  rw [generic.constant_time_eq]
  by_cases hlen : a.length = b.length
  · rw [impl_eq_true_iff a b 0 hlen ha hb]
    simp
  · constructor
    · intro h
      unfold generic.constant_time_eq_impl at h
      rw [if_pos hlen] at h
      exact absurd h (by simp)
    · intro h
      subst h
      exact absurd rfl hlen

theorem sse2_eq (a b : List Nat) :
    (sse2.constant_time_eq a b = true) ↔ a = b := by
  rw [sse2.constant_time_eq]
  by_cases hlen : a.length = b.length
  · rw [Bool.and_eq_true, sse2_correct a b hlen]
    simp [hlen]
  · rw [Bool.and_eq_true]
    constructor
    · rintro ⟨h, _⟩
      exact absurd (by simpa using h) hlen
    · intro h
      subst h
      exact absurd rfl hlen

theorem neon_eq (a b : List Nat) (ha : Bytes a) (hb : Bytes b) :
    (neon.constant_time_eq a b = true) ↔ a = b := by
  rw [neon.constant_time_eq]
  by_cases hlen : a.length = b.length
  · rw [Bool.and_eq_true, neon_correct a b hlen ha hb]
    simp [hlen]
  · rw [Bool.and_eq_true]
    constructor
    · rintro ⟨h, _⟩
      exact absurd (by simpa using h) hlen
    · intro h
      subst h
      exact absurd rfl hlen

/-! ## The claims -/

/-- C1: For every pair of byte sequences `a` and `b`, `constant_time_eq`
returns `true` if and only if `a` and `b` have equal length and are
byte-wise equal (as lists, `a = b`); in particular, for sequences of
differing lengths it returns `false`.  Proven for the crate entry point with
the generic back end selected, and for the SSE2 and NEON back ends. -/
theorem claim_c1 (a b : List Nat) (ha : Bytes a) (hb : Bytes b) :
    ((lib.constant_time_eq a b = true) ↔ a = b) ∧
    ((sse2.constant_time_eq a b = true) ↔ a = b) ∧
    ((neon.constant_time_eq a b = true) ↔ a = b) ∧
    (a.length ≠ b.length →
      lib.constant_time_eq a b = false ∧
      sse2.constant_time_eq a b = false ∧
      neon.constant_time_eq a b = false) := by
  have h1 : (lib.constant_time_eq a b = true) ↔ a = b := generic_eq a b ha hb
  have h2 := sse2_eq a b
  have h3 := neon_eq a b ha hb
  refine ⟨h1, h2, h3, ?_⟩
  intro hlen
  have hne : a ≠ b := fun h => hlen (h ▸ rfl)
  refine ⟨?_, ?_, ?_⟩
  · rcases Bool.eq_false_or_eq_true (lib.constant_time_eq a b) with h | h
    · exact absurd (h1.mp h) hne
    · exact h
  · rcases Bool.eq_false_or_eq_true (sse2.constant_time_eq a b) with h | h
    · exact absurd (h2.mp h) hne
    · exact h
  · rcases Bool.eq_false_or_eq_true (neon.constant_time_eq a b) with h | h
    · exact absurd (h3.mp h) hne
    · exact h

theorem claim_c1_witness :
    Bytes [102, 111, 111] ∧ Bytes [98, 97, 114] ∧
    (((lib.constant_time_eq [102, 111, 111] [98, 97, 114] = true) ↔
        ([102, 111, 111] : List Nat) = [98, 97, 114]) ∧
      ((sse2.constant_time_eq [102, 111, 111] [98, 97, 114] = true) ↔
        ([102, 111, 111] : List Nat) = [98, 97, 114]) ∧
      ((neon.constant_time_eq [102, 111, 111] [98, 97, 114] = true) ↔
        ([102, 111, 111] : List Nat) = [98, 97, 114]) ∧
      (([102, 111, 111] : List Nat).length ≠ ([98, 97, 114] : List Nat).length →
        lib.constant_time_eq [102, 111, 111] [98, 97, 114] = false ∧
        sse2.constant_time_eq [102, 111, 111] [98, 97, 114] = false ∧
        neon.constant_time_eq [102, 111, 111] [98, 97, 114] = false)) :=
  ⟨by decide, by decide, claim_c1 [102, 111, 111] [98, 97, 114] (by decide) (by decide)⟩

/-- C2: Throughout the generic engine's word loop over two equal-length
inputs, the accumulator is (i) only ever OR-combined with the per-chunk XOR
difference, never reset (the loop-step equation); (ii) with a zero initial
seed, zero after `k` chunks exactly when the `8 * k` bytes compared so far
are equal; and (iii) compared against zero exactly once, after all chunks
have been accumulated (the engine's result is a single zero-test of the
accumulator threaded through the word loop, the u128 loop and the tail
blocks). -/
theorem claim_c2 (a b : List Nat) (hlen : a.length = b.length)
    (ha : Bytes a) (hb : Bytes b) :
    (∀ tmp, 8 ≤ a.length →
      generic.wordLoop tmp a b =
        generic.wordLoop (tmp ||| (leVal (a.take 8) ^^^ leVal (b.take 8)))
          (a.drop 8) (b.drop 8)) ∧
    (∀ k, 8 * k ≤ a.length →
      ((generic.wordLoop 0 (a.take (8 * k)) (b.take (8 * k))).1 = 0 ↔
        a.take (8 * k) = b.take (8 * k))) ∧
    (∀ tmp, generic.constant_time_eq_impl a b tmp =
      (generic.tailChain
        (generic.u128LoopAux (generic.wordLoop tmp a b).2.1.length
          (generic.wordLoop tmp a b).1 (generic.wordLoop tmp a b).2.1
          (generic.wordLoop tmp a b).2.2).1
        (generic.u128LoopAux (generic.wordLoop tmp a b).2.1.length
          (generic.wordLoop tmp a b).1 (generic.wordLoop tmp a b).2.1
          (generic.wordLoop tmp a b).2.2).2.1
        (generic.u128LoopAux (generic.wordLoop tmp a b).2.1.length
          (generic.wordLoop tmp a b).1 (generic.wordLoop tmp a b).2.1
          (generic.wordLoop tmp a b).2.2).2.2 == 0)) := by
  refine ⟨fun tmp h8 => wordLoop_step tmp a b h8, ?_, ?_⟩
  · intro k hk
    have hta : (a.take (8 * k)).length = 8 * k := by
      rw [List.length_take]
      omega
    have htb : (b.take (8 * k)).length = 8 * k := by
      rw [List.length_take]
      omega
    obtain ⟨_, _, h3⟩ := wordLoopAux_spec (a.take (8 * k)).length 0
      (a.take (8 * k)) (b.take (8 * k)) (Nat.le_refl _) (by rw [hta, htb])
      (bytes_take a ha _) (bytes_take b hb _)
    rw [generic.wordLoop, h3]
    rw [hta, Nat.mul_div_cancel_left _ (by omega : (0:Nat) < 8)]
    rw [List.take_take, List.take_take]
    simp
  · intro tmp
    unfold generic.constant_time_eq_impl
    rw [if_neg (by omega : ¬a.length ≠ b.length)]
    by_cases hemp : a.isEmpty
    · rw [if_pos hemp]
      have ha0 : a = [] := List.isEmpty_iff.mp hemp
      subst ha0
      rfl
    · rw [if_neg hemp]

theorem claim_c2_witness :
    (List.replicate 16 1 : List Nat).length = (List.replicate 16 2 : List Nat).length ∧
    Bytes (List.replicate 16 1) ∧ Bytes (List.replicate 16 2) ∧
    ((∀ tmp, 8 ≤ (List.replicate 16 1 : List Nat).length →
      generic.wordLoop tmp (List.replicate 16 1) (List.replicate 16 2) =
        generic.wordLoop (tmp ||| (leVal ((List.replicate 16 1 : List Nat).take 8) ^^^
            leVal ((List.replicate 16 2 : List Nat).take 8)))
          ((List.replicate 16 1 : List Nat).drop 8) ((List.replicate 16 2 : List Nat).drop 8)) ∧
    (∀ k, 8 * k ≤ (List.replicate 16 1 : List Nat).length →
      ((generic.wordLoop 0 ((List.replicate 16 1 : List Nat).take (8 * k))
          ((List.replicate 16 2 : List Nat).take (8 * k))).1 = 0 ↔
        (List.replicate 16 1 : List Nat).take (8 * k) =
          (List.replicate 16 2 : List Nat).take (8 * k))) ∧
    (∀ tmp, generic.constant_time_eq_impl (List.replicate 16 1) (List.replicate 16 2) tmp =
      (generic.tailChain
        (generic.u128LoopAux
          (generic.wordLoop tmp (List.replicate 16 1) (List.replicate 16 2)).2.1.length
          (generic.wordLoop tmp (List.replicate 16 1) (List.replicate 16 2)).1
          (generic.wordLoop tmp (List.replicate 16 1) (List.replicate 16 2)).2.1
          (generic.wordLoop tmp (List.replicate 16 1) (List.replicate 16 2)).2.2).1
        (generic.u128LoopAux
          (generic.wordLoop tmp (List.replicate 16 1) (List.replicate 16 2)).2.1.length
          (generic.wordLoop tmp (List.replicate 16 1) (List.replicate 16 2)).1
          (generic.wordLoop tmp (List.replicate 16 1) (List.replicate 16 2)).2.1
          (generic.wordLoop tmp (List.replicate 16 1) (List.replicate 16 2)).2.2).2.1
        (generic.u128LoopAux
          (generic.wordLoop tmp (List.replicate 16 1) (List.replicate 16 2)).2.1.length
          (generic.wordLoop tmp (List.replicate 16 1) (List.replicate 16 2)).1
          (generic.wordLoop tmp (List.replicate 16 1) (List.replicate 16 2)).2.1
          (generic.wordLoop tmp (List.replicate 16 1) (List.replicate 16 2)).2.2).2.2 == 0))) :=
  ⟨rfl, by decide, by decide,
    claim_c2 (List.replicate 16 1) (List.replicate 16 2) rfl (by decide) (by decide)⟩

/-- C4: For every pair of equal-length byte sequences and every initial
accumulator value `tmp`, `constant_time_eq_impl a b tmp` returns `true` if
and only if `tmp` is zero and `a` equals `b`; in particular it accepts
zero-length input, which with a zero seed is trivially equal. -/
theorem claim_c4 (a b : List Nat) (tmp : Nat) (hlen : a.length = b.length)
    (ha : Bytes a) (hb : Bytes b) :
    (generic.constant_time_eq_impl a b tmp = true) ↔ (tmp = 0 ∧ a = b) :=
  impl_eq_true_iff a b tmp hlen ha hb

theorem claim_c4_witness :
    (([] : List Nat).length = ([] : List Nat).length ∧ Bytes ([] : List Nat) ∧
      ((generic.constant_time_eq_impl [] [] 0 = true) ↔ (0 = 0 ∧ ([] : List Nat) = []))) ∧
    (([3] : List Nat).length = ([7] : List Nat).length ∧
      ((generic.constant_time_eq_impl [3] [7] 5 = true) ↔ (5 = 0 ∧ ([3] : List Nat) = [7]))) :=
  ⟨⟨rfl, by decide, claim_c4 [] [] 0 rfl (by decide) (by decide)⟩,
    ⟨rfl, claim_c4 [3] [7] 5 rfl (by decide) (by decide)⟩⟩

/-- C3, counterexample: at 17 equal zero bytes, the SSE2 engine returns
`true`, while the claimed composition — the sub-register remainder delegated
to the generic scalar engine seeded with the bitwise complement (within a
64-bit machine word) of the extracted per-byte mask — returns `false`.  The
engine in `sse2.rs` in fact never delegates to the generic engine: it folds
the remainder in with overlapping partial-register loads. -/
theorem claim_c3_counterexample :
    sse2.constant_time_eq_sse2 (List.replicate 17 0) (List.replicate 17 0) = true ∧
    sse2_delegated (List.replicate 17 0) (List.replicate 17 0) = false := by
  decide

/-- C3, amended: on equal-length byte inputs each vector engine computes the
same answer as the spec's delegated composition, provided the seed is the
complement of the extracted mask within the mask's own width — `mask ^
0xFFFF` for the 16-bit `movemask` of the x86 engine, and the full 64-bit
complement for the 64-bit narrowed mask of the NEON engine.  (In the code
the remainder is actually handled inside the engine by overlapping
partial-register loads folded into the lane mask before the single final
test; the delegated composition is only extensionally equal.) -/
theorem claim_c3_amended (a b : List Nat) (hlen : a.length = b.length)
    (ha : Bytes a) (hb : Bytes b) :
    sse2.constant_time_eq_sse2 a b = sse2_delegated16 a b ∧
    neon.constant_time_eq_neon a b = neon_delegated a b := by
  constructor
  · exact bool_eq_of_iff
      ((sse2_correct a b hlen).trans (sse2_delegated16_correct a b hlen ha hb).symm)
  · exact bool_eq_of_iff
      ((neon_correct a b hlen ha hb).trans (neon_delegated_correct a b hlen ha hb).symm)

theorem claim_c3_amended_witness :
    (List.replicate 17 3 : List Nat).length = (List.replicate 17 3 : List Nat).length ∧
    Bytes (List.replicate 17 3) ∧
    (sse2.constant_time_eq_sse2 (List.replicate 17 3) (List.replicate 17 3) =
        sse2_delegated16 (List.replicate 17 3) (List.replicate 17 3) ∧
      neon.constant_time_eq_neon (List.replicate 17 3) (List.replicate 17 3) =
        neon_delegated (List.replicate 17 3) (List.replicate 17 3)) :=
  ⟨rfl, by decide,
    claim_c3_amended (List.replicate 17 3) (List.replicate 17 3) rfl (by decide) (by decide)⟩

/-- C5: the DIT register value immediately after `with_feat_dit_sb` or
`with_feat_dit` equals the value immediately before it, for every wrapped
computation `f` — including one that modifies the register or unwinds
(returns `Except.error`); and `with_dit` preserves the register for every
feature state, given (for the unwrapped `Neither` path) that the computation
itself preserves it. -/
theorem claim_c5 :
    (∀ (ε T : Type) (f : Nat → Nat × Except ε T) (s : Nat),
      (dit.with_feat_dit_sb f s).1 = s) ∧
    (∀ (ε T : Type) (f : Nat → Nat × Except ε T) (s : Nat),
      (dit.with_feat_dit f s).1 = s) ∧
    (∀ (ε T : Type) (feats : dit.Features) (f : Nat → Nat × Except ε T) (s : Nat),
      (f s).1 = s → (dit.with_dit feats f s).1 = s) := by
  refine ⟨fun ε T f s => rfl, fun ε T f s => rfl, ?_⟩
  intro ε T feats f s hf
  cases feats with
  | DitSb => rfl
  | DitOnly => rfl
  | Neither => exact hf

theorem claim_c5_witness :
    ((fun s => (s, (Except.ok 0 : Except Unit Nat))) 7).1 = 7 ∧
    (dit.with_dit dit.Features.Neither (fun s => (s, (Except.ok 0 : Except Unit Nat))) 7).1 = 7 ∧
    (dit.with_feat_dit_sb (fun _ => (12345, (Except.error () : Except Unit Nat))) 7).1 = 7 ∧
    (dit.with_feat_dit (fun _ => (9876, (Except.ok 1 : Except Unit Nat))) 7).1 = 7 :=
  ⟨rfl,
    claim_c5.2.2 Unit Nat dit.Features.Neither (fun s => (s, Except.ok 0)) 7 rfl,
    claim_c5.1 Unit Nat (fun _ => (12345, Except.error ())) 7,
    claim_c5.2.1 Unit Nat (fun _ => (9876, Except.ok 1)) 7⟩

/-- C6: the capability flag cache makes exactly one meaningful transition:
a non-zero cached value is never changed by any later set (detection or
override) or get call, and from the zero ("unknown") state one
compare-exchange publishes the computed features value, whose encoding is
always non-zero. -/
theorem claim_c6 :
    (∀ (ctd cts d s : Bool) (st : Nat), st ≠ 0 →
      (dit.set_aarch64_dit_sb_features ctd cts d s st).1 = st) ∧
    (∀ ctd cts d s : Bool,
      (dit.set_aarch64_dit_sb_features ctd cts d s 0).1 =
        (dit.computeFeatures ctd cts d s).toU8 ∧
      (dit.computeFeatures ctd cts d s).toU8 ≠ 0) ∧
    (∀ (ctd cts dd ds : Bool) (st : Nat), st ≠ 0 →
      (dit.get_aarch64_dit_sb_features ctd cts dd ds st).1 = st) := by
  refine ⟨?_, ?_, ?_⟩
  · intro ctd cts d s st hst
    simp [dit.set_aarch64_dit_sb_features, hst]
  · intro ctd cts d s
    refine ⟨by simp [dit.set_aarch64_dit_sb_features], ?_⟩
    cases h : dit.computeFeatures ctd cts d s <;> simp [dit.Features.toU8]
  · intro ctd cts dd ds st hst
    simp [dit.get_aarch64_dit_sb_features, Nat.pos_of_ne_zero hst]

theorem claim_c6_witness :
    (2 : Nat) ≠ 0 ∧
    (dit.set_aarch64_dit_sb_features true true false false 2).1 = 2 ∧
    ((dit.set_aarch64_dit_sb_features true true false false 0).1 =
        (dit.computeFeatures true true false false).toU8 ∧
      (dit.computeFeatures true true false false).toU8 ≠ 0) ∧
    (dit.get_aarch64_dit_sb_features true true false false 2).1 = 2 :=
  ⟨by decide,
    claim_c6.1 true true false false 2 (by decide),
    claim_c6.2.1 true true false false,
    claim_c6.2.2 true true false false 2 (by decide)⟩

/-- C7: for each fixed size N in {16, 32, 64} and N-byte inputs, the
convenience wrapper equals `constant_time_eq_n`, and `constant_time_eq_n`
equals `constant_time_eq` — for the selected (generic) back end and for the
SSE2 and NEON back ends. -/
theorem claim_c7 (a b : List Nat) :
    (a.length = 16 → b.length = 16 →
      lib.constant_time_eq_16 a b = lib.constant_time_eq_n a b ∧
      lib.constant_time_eq_n a b = lib.constant_time_eq a b ∧
      sse2.constant_time_eq_n a b = sse2.constant_time_eq a b ∧
      neon.constant_time_eq_n a b = neon.constant_time_eq a b) ∧
    (a.length = 32 → b.length = 32 →
      lib.constant_time_eq_32 a b = lib.constant_time_eq_n a b ∧
      lib.constant_time_eq_n a b = lib.constant_time_eq a b ∧
      sse2.constant_time_eq_n a b = sse2.constant_time_eq a b ∧
      neon.constant_time_eq_n a b = neon.constant_time_eq a b) ∧
    (a.length = 64 → b.length = 64 →
      lib.constant_time_eq_64 a b = lib.constant_time_eq_n a b ∧
      lib.constant_time_eq_n a b = lib.constant_time_eq a b ∧
      sse2.constant_time_eq_n a b = sse2.constant_time_eq a b ∧
      neon.constant_time_eq_n a b = neon.constant_time_eq a b) := by
  refine ⟨?_, ?_, ?_⟩ <;> intro h1 h2 <;>
    refine ⟨rfl, rfl, ?_, ?_⟩ <;>
      simp [sse2.constant_time_eq, sse2.constant_time_eq_n,
        neon.constant_time_eq, neon.constant_time_eq_n, h1, h2]

theorem claim_c7_witness :
    ((List.replicate 16 3 : List Nat).length = 16 ∧
      (lib.constant_time_eq_16 (List.replicate 16 3) (List.replicate 16 4) =
          lib.constant_time_eq_n (List.replicate 16 3) (List.replicate 16 4) ∧
        lib.constant_time_eq_n (List.replicate 16 3) (List.replicate 16 4) =
          lib.constant_time_eq (List.replicate 16 3) (List.replicate 16 4) ∧
        sse2.constant_time_eq_n (List.replicate 16 3) (List.replicate 16 4) =
          sse2.constant_time_eq (List.replicate 16 3) (List.replicate 16 4) ∧
        neon.constant_time_eq_n (List.replicate 16 3) (List.replicate 16 4) =
          neon.constant_time_eq (List.replicate 16 3) (List.replicate 16 4))) ∧
    ((List.replicate 32 3 : List Nat).length = 32 ∧
      (lib.constant_time_eq_32 (List.replicate 32 3) (List.replicate 32 3) =
          lib.constant_time_eq_n (List.replicate 32 3) (List.replicate 32 3) ∧
        lib.constant_time_eq_n (List.replicate 32 3) (List.replicate 32 3) =
          lib.constant_time_eq (List.replicate 32 3) (List.replicate 32 3) ∧
        sse2.constant_time_eq_n (List.replicate 32 3) (List.replicate 32 3) =
          sse2.constant_time_eq (List.replicate 32 3) (List.replicate 32 3) ∧
        neon.constant_time_eq_n (List.replicate 32 3) (List.replicate 32 3) =
          neon.constant_time_eq (List.replicate 32 3) (List.replicate 32 3))) ∧
    ((List.replicate 64 7 : List Nat).length = 64 ∧
      (lib.constant_time_eq_64 (List.replicate 64 7) (List.replicate 64 7) =
          lib.constant_time_eq_n (List.replicate 64 7) (List.replicate 64 7) ∧
        lib.constant_time_eq_n (List.replicate 64 7) (List.replicate 64 7) =
          lib.constant_time_eq (List.replicate 64 7) (List.replicate 64 7) ∧
        sse2.constant_time_eq_n (List.replicate 64 7) (List.replicate 64 7) =
          sse2.constant_time_eq (List.replicate 64 7) (List.replicate 64 7) ∧
        neon.constant_time_eq_n (List.replicate 64 7) (List.replicate 64 7) =
          neon.constant_time_eq (List.replicate 64 7) (List.replicate 64 7))) :=
  ⟨⟨by decide, (claim_c7 _ _).1 (by decide) (by decide)⟩,
    ⟨by decide, (claim_c7 _ _).2.1 (by decide) (by decide)⟩,
    ⟨by decide, (claim_c7 _ _).2.2 (by decide) (by decide)⟩⟩

/-- C8: `constant_time_eq` is symmetric in its two arguments, for the selected
(generic) back end and for the SSE2 and NEON back ends. -/
theorem claim_c8 (a b : List Nat) (ha : Bytes a) (hb : Bytes b) :
    lib.constant_time_eq a b = lib.constant_time_eq b a ∧
    sse2.constant_time_eq a b = sse2.constant_time_eq b a ∧
    neon.constant_time_eq a b = neon.constant_time_eq b a := by
  refine ⟨?_, ?_, ?_⟩
  · exact bool_eq_of_iff ((generic_eq a b ha hb).trans (eq_comm.trans (generic_eq b a hb ha).symm))
  · exact bool_eq_of_iff ((sse2_eq a b).trans (eq_comm.trans (sse2_eq b a).symm))
  · exact bool_eq_of_iff ((neon_eq a b ha hb).trans (eq_comm.trans (neon_eq b a hb ha).symm))

theorem claim_c8_witness :
    Bytes [1, 2, 3] ∧ Bytes [1, 2] ∧
    (lib.constant_time_eq [1, 2, 3] [1, 2] = lib.constant_time_eq [1, 2] [1, 2, 3] ∧
      sse2.constant_time_eq [1, 2, 3] [1, 2] = sse2.constant_time_eq [1, 2] [1, 2, 3] ∧
      neon.constant_time_eq [1, 2, 3] [1, 2] = neon.constant_time_eq [1, 2] [1, 2, 3]) :=
  ⟨by decide, by decide, claim_c8 [1, 2, 3] [1, 2] (by decide) (by decide)⟩

/-- C9: for every `n ≤ 16` and buffers holding at least `n` in-bounds bytes,
the partial-vector loads of the two buffers produce equal 128-bit registers
exactly when the first `n` bytes agree — for the SSE2 load and the NEON
load. -/
theorem claim_c9 (a b : List Nat) (n : Nat) (hn : n ≤ 16)
    (hna : n ≤ a.length) (hnb : n ≤ b.length) (ha : Bytes a) (hb : Bytes b) :
    ((sse2.loadu_short a n = sse2.loadu_short b n) ↔ a.take n = b.take n) ∧
    ((neon.vld1q_u8_short a n = neon.vld1q_u8_short b n) ↔ a.take n = b.take n) :=
  ⟨loadu_short_iff a b n hn hna hnb, vld1q_short_iff a b n hn hna hnb ha hb⟩

theorem claim_c9_witness :
    (7 : Nat) ≤ 16 ∧ (7 : Nat) ≤ ([1, 2, 3, 4, 5, 6, 7, 9] : List Nat).length ∧
    Bytes [1, 2, 3, 4, 5, 6, 7, 9] ∧ Bytes [1, 2, 3, 4, 5, 6, 7, 8] ∧
    (((sse2.loadu_short [1, 2, 3, 4, 5, 6, 7, 9] 7 =
        sse2.loadu_short [1, 2, 3, 4, 5, 6, 7, 8] 7) ↔
      ([1, 2, 3, 4, 5, 6, 7, 9] : List Nat).take 7 =
        ([1, 2, 3, 4, 5, 6, 7, 8] : List Nat).take 7) ∧
    ((neon.vld1q_u8_short [1, 2, 3, 4, 5, 6, 7, 9] 7 =
        neon.vld1q_u8_short [1, 2, 3, 4, 5, 6, 7, 8] 7) ↔
      ([1, 2, 3, 4, 5, 6, 7, 9] : List Nat).take 7 =
        ([1, 2, 3, 4, 5, 6, 7, 8] : List Nat).take 7)) :=
  ⟨by decide, by decide, by decide, by decide,
    claim_c9 [1, 2, 3, 4, 5, 6, 7, 9] [1, 2, 3, 4, 5, 6, 7, 8] 7
      (by decide) (by decide) (by decide) (by decide) (by decide)⟩

/-- C10: for every 128-bit mask whose 16 byte lanes are each 0x00 or 0xFF,
the NEON final check — narrowing each 16-bit lane by a right shift of 4 into
a 64-bit value and comparing it against all-ones — succeeds exactly when
every lane of the mask is 0xFF. -/
theorem claim_c10 (m : List Nat) (hlen : m.length = 16) (hm : MaskBytes m) :
    ((leVal (neon.vshrn_n_u16_4_hide m) == 2 ^ 64 - 1) = true) ↔ allFF m :=
  neon_final_eq_iff m hm hlen

theorem claim_c10_witness :
    ((List.replicate 16 255 : List Nat).length = 16 ∧
      MaskBytes (List.replicate 16 255) ∧
      (((leVal (neon.vshrn_n_u16_4_hide (List.replicate 16 255)) == 2 ^ 64 - 1) = true) ↔
        allFF (List.replicate 16 255))) ∧
    ((255 :: 0 :: List.replicate 14 255 : List Nat).length = 16 ∧
      MaskBytes (255 :: 0 :: List.replicate 14 255) ∧
      (((leVal (neon.vshrn_n_u16_4_hide (255 :: 0 :: List.replicate 14 255)) ==
          2 ^ 64 - 1) = true) ↔ allFF (255 :: 0 :: List.replicate 14 255))) :=
  ⟨⟨by decide, by decide, claim_c10 (List.replicate 16 255) (by decide) (by decide)⟩,
    ⟨by decide, by decide, claim_c10 (255 :: 0 :: List.replicate 14 255) (by decide) (by decide)⟩⟩
